import Mathlib

/-!
Verification of the picante memoization engine against its specification.

The development shallowly embeds the Rust sources of `crates/picante/src`:

* `Picante.Protocol` — the per-cell state machine of
  `DerivedIngredient::get_scoped` (`ingredient/derived.rs`), as a small-step
  transition system over a global state holding the revision clock, one cell,
  and the program counter of every task.  Lock-protected regions of the source
  become single atomic steps; code executed without the lock becomes separate
  steps, so all interleavings of the source are present.
* `Picante.Frames` — the task-local frame stack (`frame.rs` is not part of the
  provided sources, so its operations are modelled from the spec) together
  with the pre-loop section of `get_scoped` and `InternedIngredient::get`.
* `Picante.Persist` — the persistence layer (`persist.rs`,
  `ingredient/interned.rs`, and the input ingredient, with byte-level codecs
  treated as the opaque pair the spec prescribes).

Machine integers of the source are `Nat` with explicit bounds where the
source's saturation/wrapping matters (the interned `u32` id counter).
-/

namespace Picante

/-- Encoded key bytes (`key.rs` `Key`): an immutable byte vector.  Bytes are
modelled as naturals; byte-level codec details are out of scope per the spec. -/
abbrev Key := List Nat

/-- `key.rs` `DynKey`: global identity of a query invocation, a
`(QueryKindId, Key)` pair.  Kind ids are `u32`, modelled as `Nat`. -/
abbrev DynKey := Nat × Key

/-- `key.rs` `Dep`: a recorded dependency edge, `(QueryKindId, Key)`. -/
abbrev Dep := Nat × Key

/-- `error.rs` `PicanteError` (the file is not under the provided sources; the
variants are modelled from the spec's error taxonomy in §7, which matches the
constructors used by `derived.rs`, `interned.rs` and `persist.rs`).  Messages
are strings; `User` stands for opaque user-defined compute errors. -/
inductive PicanteError where
  | Cycle (requested : DynKey) (stack : List DynKey)
  | Panic (message : String)
  | Encode (what : String) (message : String)
  | Decode (what : String) (message : String)
  | Cache (message : String)
  | MissingInternedValue (kind : Nat) (id : Nat)
  | Cancelled
  | User (code : Nat)
  deriving DecidableEq, Repr

namespace Protocol

/-- `derived.rs` `State<V>`: the cell state machine.  `deps` is the dependency
list recorded by the frame during the computation that produced the value. -/
inductive State (V : Type) where
  | vacant
  | running (startedAt : Nat)
  | ready (value : V) (verifiedAt : Nat) (deps : List Dep)
  | poisoned (error : PicanteError) (verifiedAt : Nat)
  deriving DecidableEq, Repr

/-- Result of one invocation of the user compute function at a given revision:
`Ok(v)` (with the deps the frame recorded), `Err(e)`, or an unwound panic with
its best-effort message (`derived.rs` `catch_unwind` + `panic_message`).
The compute function of the source is a fixed function of the database and the
key, so its outcome is a function of the revision at which it runs. -/
inductive COutcome (V : Type) where
  | ok (value : V) (deps : List Dep)
  | err (e : PicanteError)
  | panicked (message : String)
  deriving DecidableEq, Repr

/-- The value `get_scoped` returns when the observed revision is `rev`:
the computed value, the stored error, or the `Panic`-wrapped payload. -/
def resultOf {V : Type} : COutcome V → Except PicanteError V
  | .ok v _ => .ok v
  | .err e => .error e
  | .panicked m => .error (.Panic m)

/-- The classification performed under the cell lock in step 1 of
`get_scoped` (`derived.rs` lines 106-126): the `Observed` enum. -/
inductive Observed (V : Type) where
  | ready (value : V)
  | error (e : PicanteError)
  | running
  | stale
  deriving DecidableEq, Repr

/-- `derived.rs` lines 108-125: the `match &*state` of the observation loop.
`Ready`/`Poisoned` are observed only when `verified_at == rev`; `Running` is
observed as running; everything else is stale. -/
def observe {V : Type} (c : State V) (rev : Nat) : Observed V :=
  match c with
  | .ready v verifiedAt _ => if verifiedAt = rev then .ready v else .stale
  | .poisoned e verifiedAt => if verifiedAt = rev then .error e else .stale
  | .running _ => .running
  | .vacant => .stale

/-- `derived.rs` lines 151-162: the take-the-job check.  `true` exactly when
the state is neither `Ready`-at-`rev`, `Poisoned`-at-`rev`, nor `Running`. -/
def canTake {V : Type} (c : State V) (rev : Nat) : Bool :=
  match c with
  | .ready _ verifiedAt _ => decide (verifiedAt ≠ rev)
  | .poisoned _ verifiedAt => decide (verifiedAt ≠ rev)
  | .running _ => false
  | .vacant => true

/-- Program counter of one task running `get_scoped` on the cell.  Each
constructor marks the point between two atomic actions of the source:

* `top` — head of the `loop`, about to read `current_revision`.
* `classify rev` — holds `rev`, about to lock the cell and classify.
* `recheckReady rev v` / `recheckErr rev e` — observed `Ready`/`Poisoned`,
  about to re-read the clock (lines 131, 137).
* `waiting rev n` — observed `Running`; awaiting `notify`, registered when the
  notification counter read `n`.
* `takeJob rev` — observed stale, about to re-lock and attempt the
  `Vacant/stale → Running` transition.
* `computing rev` — owns `Running { started_at := rev }`; the user compute is
  in flight.
* `staleOk rev v` / `staleErr rev e` — finalized the cell, about to run the
  stale re-check (lines 206, 227, 252).
* `ret rev r` — returned `r` from a call whose final observed revision was
  `rev`. -/
inductive TPC (V : Type) where
  | top
  | classify (rev : Nat)
  | recheckReady (rev : Nat) (v : V)
  | recheckErr (rev : Nat) (e : PicanteError)
  | waiting (rev : Nat) (n : Nat)
  | takeJob (rev : Nat)
  | computing (rev : Nat)
  | staleOk (rev : Nat) (v : V)
  | staleErr (rev : Nat) (e : PicanteError)
  | ret (rev : Nat) (r : Except PicanteError V)
  deriving Repr

/-- The revision a task's continuation is pinned to, if any. -/
def TPC.revOf {V : Type} : TPC V → Option Nat
  | .top => none
  | .classify rev => some rev
  | .recheckReady rev _ => some rev
  | .recheckErr rev _ => some rev
  | .waiting rev _ => some rev
  | .takeJob rev => some rev
  | .computing rev => some rev
  | .staleOk rev _ => some rev
  | .staleErr rev _ => some rev
  | .ret rev _ => some rev

/-- Global state: the runtime's revision clock (`Runtime::current_revision`),
one cell's state, every task's program counter, and the cell's notification
counter (`tokio::sync::Notify`, counted so that `notify_waiters` wakes exactly
the waiters registered before it). -/
structure GState (V : Type) where
  clock : Nat
  cell : State V
  pc : Nat → TPC V
  notifyCount : Nat

/-- One atomic action of a single task, relating its old program counter, the
cell and the notification counter to their new values.  `clock` is read-only
here; only the runtime bumps it.  Constructors follow `get_scoped` top to
bottom. -/
inductive TaskStep {V : Type} (oc : Nat → COutcome V) (clock : Nat) :
    TPC V → State V → Nat → TPC V → State V → Nat → Prop where
  /-- `let rev = db.runtime().current_revision()` (line 96). -/
  | readClock (c : State V) (nc : Nat) :
      TaskStep oc clock .top c nc (.classify clock) c nc
  /-- Lock + classify, observing `Ready` at `rev` (lines 106-126, 129). -/
  | classifyReady (rev : Nat) (v : V) (c : State V) (nc : Nat)
      (hobs : observe c rev = .ready v) :
      TaskStep oc clock (.classify rev) c nc (.recheckReady rev v) c nc
  /-- Lock + classify, observing `Poisoned` at `rev` (line 136). -/
  | classifyErr (rev : Nat) (e : PicanteError) (c : State V) (nc : Nat)
      (hobs : observe c rev = .error e) :
      TaskStep oc clock (.classify rev) c nc (.recheckErr rev e) c nc
  /-- Lock + classify, observing `Running`; the task will await the cell's
  notification, registering at the current counter (lines 142-145). -/
  | classifyRunning (rev : Nat) (c : State V) (nc : Nat)
      (hobs : observe c rev = .running) :
      TaskStep oc clock (.classify rev) c nc (.waiting rev nc) c nc
  /-- Lock + classify, observing a stale state (line 147). -/
  | classifyStale (rev : Nat) (c : State V) (nc : Nat)
      (hobs : observe c rev = .stale) :
      TaskStep oc clock (.classify rev) c nc (.takeJob rev) c nc
  /-- Observation re-check succeeds: `current_revision() == rev`, return the
  observed value (line 131). -/
  | recheckReadyHit (rev : Nat) (v : V) (c : State V) (nc : Nat)
      (hclk : clock = rev) :
      TaskStep oc clock (.recheckReady rev v) c nc (.ret rev (.ok v)) c nc
  /-- Observation re-check fails: the clock moved, `continue` (line 134). -/
  | recheckReadyMiss (rev : Nat) (v : V) (c : State V) (nc : Nat)
      (hclk : clock ≠ rev) :
      TaskStep oc clock (.recheckReady rev v) c nc .top c nc
  /-- Observation re-check succeeds for an observed error (line 137). -/
  | recheckErrHit (rev : Nat) (e : PicanteError) (c : State V) (nc : Nat)
      (hclk : clock = rev) :
      TaskStep oc clock (.recheckErr rev e) c nc (.ret rev (.error e)) c nc
  /-- Observation re-check fails for an observed error (line 140). -/
  | recheckErrMiss (rev : Nat) (e : PicanteError) (c : State V) (nc : Nat)
      (hclk : clock ≠ rev) :
      TaskStep oc clock (.recheckErr rev e) c nc .top c nc
  /-- `cell.notify.notified().await` completes: a notification strictly after
  registration has fired; `continue` (line 144). -/
  | wake (rev : Nat) (n : Nat) (c : State V) (nc : Nat) (hn : n < nc) :
      TaskStep oc clock (.waiting rev n) c nc .top c nc
  /-- Take-the-job succeeds: the re-locked state is still stale, transition it
  to `Running { started_at := rev }` and keep ownership (lines 157-160). -/
  | takeJobWin (rev : Nat) (c : State V) (nc : Nat)
      (htake : canTake c rev = true) :
      TaskStep oc clock (.takeJob rev) c nc (.computing rev) (.running rev) nc
  /-- Take-the-job raced: someone else produced a value at `rev` or is
  running; `continue` (lines 154-156, 164-167). -/
  | takeJobLose (rev : Nat) (c : State V) (nc : Nat)
      (htake : canTake c rev = false) :
      TaskStep oc clock (.takeJob rev) c nc .top c nc
  /-- Compute returned `Ok`: finalize the cell to `Ready` under the lock and
  wake all waiters (lines 188-196). -/
  | finalizeOk (rev : Nat) (v : V) (deps : List Dep) (c : State V) (nc : Nat)
      (hoc : oc rev = .ok v deps) :
      TaskStep oc clock (.computing rev) c nc
        (.staleOk rev v) (.ready v rev deps) (nc + 1)
  /-- Compute returned `Err`: finalize the cell to `Poisoned` and wake all
  waiters (lines 211-218). -/
  | finalizeErr (rev : Nat) (e : PicanteError) (c : State V) (nc : Nat)
      (hoc : oc rev = .err e) :
      TaskStep oc clock (.computing rev) c nc
        (.staleErr rev e) (.poisoned e rev) (nc + 1)
  /-- Compute panicked: `catch_unwind` returned the payload; wrap it as a
  `Panic` error, finalize to `Poisoned`, wake all waiters (lines 232-243). -/
  | finalizePanic (rev : Nat) (m : String) (c : State V) (nc : Nat)
      (hoc : oc rev = .panicked m) :
      TaskStep oc clock (.computing rev) c nc
        (.staleErr rev (.Panic m)) (.poisoned (.Panic m) rev) (nc + 1)
  /-- Post-compute stale re-check succeeds: return the produced value
  (line 206). -/
  | staleOkHit (rev : Nat) (v : V) (c : State V) (nc : Nat)
      (hclk : clock = rev) :
      TaskStep oc clock (.staleOk rev v) c nc (.ret rev (.ok v)) c nc
  /-- Post-compute stale re-check fails: the value is stale, `continue`
  (line 209). -/
  | staleOkMiss (rev : Nat) (v : V) (c : State V) (nc : Nat)
      (hclk : clock ≠ rev) :
      TaskStep oc clock (.staleOk rev v) c nc .top c nc
  /-- Post-compute stale re-check succeeds for an error result
  (lines 227, 252). -/
  | staleErrHit (rev : Nat) (e : PicanteError) (c : State V) (nc : Nat)
      (hclk : clock = rev) :
      TaskStep oc clock (.staleErr rev e) c nc (.ret rev (.error e)) c nc
  /-- Post-compute stale re-check fails for an error result
  (lines 230, 255). -/
  | staleErrMiss (rev : Nat) (e : PicanteError) (c : State V) (nc : Nat)
      (hclk : clock ≠ rev) :
      TaskStep oc clock (.staleErr rev e) c nc .top c nc

/-- Global step: either the runtime bumps the revision
(`Runtime::bump_revision`, driven by input mutations), or some task performs
one atomic action of `get_scoped`. -/
inductive GStep {V : Type} (oc : Nat → COutcome V) :
    GState V → GState V → Prop where
  | bump (s : GState V) :
      GStep oc s ⟨s.clock + 1, s.cell, s.pc, s.notifyCount⟩
  | task (s : GState V) (i : Nat) (p : TPC V) (c : State V) (nc : Nat)
      (h : TaskStep oc s.clock (s.pc i) s.cell s.notifyCount p c nc) :
      GStep oc s ⟨s.clock, c, Function.update s.pc i p, nc⟩

/-- Initial state: revision clock at 0 (`Runtime::new`), a fresh `Vacant`
cell (`Cell::new`), every task at the head of its call. -/
def init (V : Type) : GState V :=
  ⟨0, .vacant, fun _ => .top, 0⟩

/-- States reachable by the protocol from the initial state. -/
def Reachable {V : Type} (oc : Nat → COutcome V) (s : GState V) : Prop :=
  Relation.ReflTransGen (GStep oc) (init V) s

/-- The stored error of a `Poisoned` cell written at revision `rev` matches
the compute outcome at `rev`: either the compute returned it, or it wraps the
panic payload. -/
def errMatches {V : Type} (oc : Nat → COutcome V) (rev : Nat)
    (e : PicanteError) : Prop :=
  oc rev = .err e ∨ ∃ m, oc rev = .panicked m ∧ e = .Panic m

theorem errMatches_resultOf {V : Type} {oc : Nat → COutcome V} {rev : Nat}
    {e : PicanteError} (h : errMatches oc rev e) :
    resultOf (oc rev) = .error e := by
  rcases h with h | ⟨m, hm, he⟩
  · rw [h]; rfl
  · rw [hm, he]; rfl

/-- Per-task part of the protocol invariant, relating one task's continuation
to the clock, the cell and the notification counter:

* any pinned revision was read from the (monotone) clock, so it is `≤ clock`;
* a computing task owns the cell: the cell is `Running` stamped with its
  revision;
* a continuation that carries an observed or produced result for revision
  `rev` agrees with the compute outcome at `rev`;
* a waiter's registration ticket never exceeds the notification counter. -/
structure PcOk {V : Type} (oc : Nat → COutcome V) (clock : Nat)
    (cell : State V) (nc : Nat) (p : TPC V) : Prop where
  revLe : ∀ rev, p.revOf = some rev → rev ≤ clock
  comp : ∀ rev, p = .computing rev → cell = .running rev
  rr : ∀ rev v, p = .recheckReady rev v → ∃ deps, oc rev = .ok v deps
  re : ∀ rev e, p = .recheckErr rev e → errMatches oc rev e
  so : ∀ rev v, p = .staleOk rev v → ∃ deps, oc rev = .ok v deps
  se : ∀ rev e, p = .staleErr rev e → errMatches oc rev e
  rt : ∀ rev r, p = .ret rev r → r = resultOf (oc rev)
  wt : ∀ rev n, p = .waiting rev n → n ≤ nc

/-- Cell part of the protocol invariant: a `Ready`/`Poisoned` cell was
verified at a revision the clock has reached, and stores exactly the compute
outcome of that revision. -/
structure CellOk {V : Type} (oc : Nat → COutcome V) (clock : Nat)
    (cell : State V) : Prop where
  ready : ∀ v verifiedAt deps, cell = .ready v verifiedAt deps →
    verifiedAt ≤ clock ∧ oc verifiedAt = .ok v deps
  poisoned : ∀ e verifiedAt, cell = .poisoned e verifiedAt →
    verifiedAt ≤ clock ∧ errMatches oc verifiedAt e

/-- The protocol invariant: every task's continuation is consistent, the cell
is consistent, and at most one task is computing (single-flight). -/
structure Inv {V : Type} (oc : Nat → COutcome V) (s : GState V) : Prop where
  pcOk : ∀ i, PcOk oc s.clock s.cell s.notifyCount (s.pc i)
  cellOk : CellOk oc s.clock s.cell
  uniq : ∀ i j ri rj, s.pc i = .computing ri → s.pc j = .computing rj → i = j

theorem pcOk_top {V : Type} {oc : Nat → COutcome V} {clock : Nat}
    {cell : State V} {nc : Nat} : PcOk oc clock cell nc (.top : TPC V) := by
  constructor <;> intro rev <;> intros <;> simp_all [TPC.revOf]

theorem pcOk_mono {V : Type} {oc : Nat → COutcome V} {clock clock' : Nat}
    {cell : State V} {nc nc' : Nat} {p : TPC V}
    (h : PcOk oc clock cell nc p) (hc : clock ≤ clock') (hn : nc ≤ nc') :
    PcOk oc clock' cell nc' p :=
  ⟨fun rev hr => le_trans (h.revLe rev hr) hc, h.comp, h.rr, h.re, h.so,
    h.se, h.rt, fun rev n hw => le_trans (h.wt rev n hw) hn⟩

/-- A continuation that is not `computing` keeps its consistency when the
cell changes and the notification counter does not shrink. -/
theorem pcOk_cell_change {V : Type} {oc : Nat → COutcome V} {clock : Nat}
    {cell cell' : State V} {nc nc' : Nat} {p : TPC V}
    (h : PcOk oc clock cell nc p) (hnc : ∀ rev, p ≠ .computing rev)
    (hn : nc ≤ nc') : PcOk oc clock cell' nc' p :=
  ⟨h.revLe, fun rev hr => absurd hr (hnc rev), h.rr, h.re, h.so, h.se, h.rt,
    fun rev n hw => le_trans (h.wt rev n hw) hn⟩

theorem cellOk_mono {V : Type} {oc : Nat → COutcome V} {clock clock' : Nat}
    {cell : State V} (h : CellOk oc clock cell) (hc : clock ≤ clock') :
    CellOk oc clock' cell :=
  ⟨fun v vAt deps hr => ⟨le_trans (h.ready v vAt deps hr).1 hc,
      (h.ready v vAt deps hr).2⟩,
    fun e vAt hp => ⟨le_trans (h.poisoned e vAt hp).1 hc,
      (h.poisoned e vAt hp).2⟩⟩

/-- If `observe` reports `Ready v` at `rev`, the state is `Ready` with
`verified_at = rev` and value `v`. -/
theorem observe_ready_eq {V : Type} {c : State V} {rev : Nat} {v : V}
    (h : observe c rev = .ready v) : ∃ deps, c = .ready v rev deps := by
  cases c with
  | ready w verifiedAt deps =>
    by_cases hv : verifiedAt = rev <;> simp [observe, hv] at h
    exact ⟨deps, by simp [h, hv]⟩
  | poisoned e verifiedAt =>
    by_cases hv : verifiedAt = rev <;> simp [observe, hv] at h
  | running r => simp [observe] at h
  | vacant => simp [observe] at h

/-- If `observe` reports an error at `rev`, the state is `Poisoned` with
`verified_at = rev` and that error. -/
theorem observe_error_eq {V : Type} {c : State V} {rev : Nat}
    {e : PicanteError} (h : observe c rev = .error e) :
    c = .poisoned e rev := by
  cases c with
  | ready w verifiedAt deps =>
    by_cases hv : verifiedAt = rev <;> simp [observe, hv] at h
  | poisoned e' verifiedAt =>
    by_cases hv : verifiedAt = rev <;> simp [observe, hv] at h
    simp [h, hv]
  | running r => simp [observe] at h
  | vacant => simp [observe] at h

/-- The take-the-job check only succeeds on a non-`Running` state. -/
theorem canTake_not_running {V : Type} {c : State V} {rev : Nat}
    (h : canTake c rev = true) : ∀ r, c ≠ .running r := by
  intro r
  cases c <;> simp_all [canTake]

theorem clock_mono {V : Type} {oc : Nat → COutcome V} {s s' : GState V}
    (h : GStep oc s s') : s.clock ≤ s'.clock := by
  cases h with
  | bump => exact Nat.le_succ _
  | task => exact Nat.le_refl _

theorem clock_mono_many {V : Type} {oc : Nat → COutcome V} {s s' : GState V}
    (h : Relation.ReflTransGen (GStep oc) s s') : s.clock ≤ s'.clock := by
  induction h with
  | refl => exact Nat.le_refl _
  | tail _ hstep ih => exact le_trans ih (clock_mono hstep)

theorem notify_le_of_taskStep {V : Type} {oc : Nat → COutcome V}
    {clock : Nat} {p₀ p : TPC V} {c₀ c : State V} {nc₀ nc : Nat}
    (h : TaskStep oc clock p₀ c₀ nc₀ p c nc) : nc₀ ≤ nc := by
  cases h <;> simp

theorem inv_init {V : Type} (oc : Nat → COutcome V) : Inv oc (init V) := by
  refine ⟨fun i => pcOk_top, ⟨?_, ?_⟩, ?_⟩ <;> intro i <;> intros <;>
    simp_all [init]

theorem pcOk_classify {V : Type} {oc : Nat → COutcome V} {clock : Nat}
    {cell : State V} {nc rev : Nat} (h : rev ≤ clock) :
    PcOk oc clock cell nc (.classify rev : TPC V) := by
  constructor <;> intro r <;> intros <;> simp_all [TPC.revOf]

theorem pcOk_takeJob {V : Type} {oc : Nat → COutcome V} {clock : Nat}
    {cell : State V} {nc rev : Nat} (h : rev ≤ clock) :
    PcOk oc clock cell nc (.takeJob rev : TPC V) := by
  constructor <;> intro r <;> intros <;> simp_all [TPC.revOf]

theorem pcOk_recheckReady {V : Type} {oc : Nat → COutcome V} {clock : Nat}
    {cell : State V} {nc rev : Nat} {v : V} (h : rev ≤ clock)
    (hoc : ∃ deps, oc rev = .ok v deps) :
    PcOk oc clock cell nc (.recheckReady rev v) := by
  constructor <;> intro r <;> intros <;> simp_all [TPC.revOf]

theorem pcOk_recheckErr {V : Type} {oc : Nat → COutcome V} {clock : Nat}
    {cell : State V} {nc rev : Nat} {e : PicanteError} (h : rev ≤ clock)
    (hoc : errMatches oc rev e) :
    PcOk oc clock cell nc (.recheckErr rev e : TPC V) := by
  constructor <;> intro r <;> intros <;> simp_all [TPC.revOf]

theorem pcOk_waiting {V : Type} {oc : Nat → COutcome V} {clock : Nat}
    {cell : State V} {nc rev n : Nat} (h : rev ≤ clock) (hn : n ≤ nc) :
    PcOk oc clock cell nc (.waiting rev n : TPC V) := by
  constructor <;> intro r <;> intros <;> simp_all [TPC.revOf]

theorem pcOk_computing {V : Type} {oc : Nat → COutcome V} {clock : Nat}
    {cell : State V} {nc rev : Nat} (h : rev ≤ clock)
    (hc : cell = .running rev) :
    PcOk oc clock cell nc (.computing rev : TPC V) := by
  constructor <;> intro r <;> intros <;> simp_all [TPC.revOf]

theorem pcOk_staleOk {V : Type} {oc : Nat → COutcome V} {clock : Nat}
    {cell : State V} {nc rev : Nat} {v : V} (h : rev ≤ clock)
    (hoc : ∃ deps, oc rev = .ok v deps) :
    PcOk oc clock cell nc (.staleOk rev v) := by
  constructor <;> intro r <;> intros <;> simp_all [TPC.revOf]

theorem pcOk_staleErr {V : Type} {oc : Nat → COutcome V} {clock : Nat}
    {cell : State V} {nc rev : Nat} {e : PicanteError} (h : rev ≤ clock)
    (hoc : errMatches oc rev e) :
    PcOk oc clock cell nc (.staleErr rev e : TPC V) := by
  constructor <;> intro r <;> intros <;> simp_all [TPC.revOf]

theorem pcOk_ret {V : Type} {oc : Nat → COutcome V} {clock : Nat}
    {cell : State V} {nc rev : Nat} {r : Except PicanteError V}
    (h : rev ≤ clock) (hr : r = resultOf (oc rev)) :
    PcOk oc clock cell nc (.ret rev r) := by
  constructor
  · intro r' h'; simp [TPC.revOf] at h'; omega
  · intro r' h'; simp at h'
  · intro r' v h'; simp at h'
  · intro r' e h'; simp at h'
  · intro r' v h'; simp at h'
  · intro r' e h'; simp at h'
  · intro r' r'' h'
    rw [TPC.ret.injEq] at h'
    rw [← h'.2, ← h'.1, hr]
  · intro r' n h'; simp at h'

theorem cellOk_running {V : Type} {oc : Nat → COutcome V} {clock rev : Nat} :
    CellOk oc clock (.running rev : State V) := by
  constructor <;> intros <;> simp_all

/-- Rebuild the invariant after one task's program counter is updated. -/
theorem inv_update {V : Type} {oc : Nat → COutcome V} {s : GState V}
    {i : Nat} {p : TPC V} {c : State V} {nc : Nat}
    (hpcI : PcOk oc s.clock c nc p)
    (hothers : ∀ j, j ≠ i → PcOk oc s.clock c nc (s.pc j))
    (hcell : CellOk oc s.clock c)
    (huniq : ∀ j k rj rk, Function.update s.pc i p j = .computing rj →
      Function.update s.pc i p k = .computing rk → j = k) :
    Inv oc ⟨s.clock, c, Function.update s.pc i p, nc⟩ := by
  refine ⟨?_, hcell, huniq⟩
  intro j
  by_cases hj : j = i
  · subst hj; simpa using hpcI
  · simpa [Function.update_noteq hj] using hothers j hj

/-- Updating a task to a non-computing continuation preserves single-flight. -/
theorem uniq_update_not_computing {V : Type} {s : GState V} {i : Nat}
    {p : TPC V}
    (huniq : ∀ j k rj rk, s.pc j = .computing rj →
      s.pc k = .computing rk → j = k)
    (hp : ∀ rev, p ≠ .computing rev) :
    ∀ j k rj rk, Function.update s.pc i p j = .computing rj →
      Function.update s.pc i p k = .computing rk → j = k := by
  intro j k rj rk hj hk
  by_cases hji : j = i
  · subst hji; rw [Function.update_same] at hj; exact absurd hj (hp rj)
  · rw [Function.update_noteq hji] at hj
    by_cases hki : k = i
    · subst hki; rw [Function.update_same] at hk; exact absurd hk (hp rk)
    · rw [Function.update_noteq hki] at hk
      exact huniq j k rj rk hj hk

/-- Updating task `i` to any continuation preserves single-flight when no
other task is computing. -/
theorem uniq_update_sole {V : Type} {s : GState V} {i : Nat} {p : TPC V}
    (hothers : ∀ j, j ≠ i → ∀ rev, s.pc j ≠ .computing rev) :
    ∀ j k rj rk, Function.update s.pc i p j = .computing rj →
      Function.update s.pc i p k = .computing rk → j = k := by
  intro j k rj rk hj hk
  by_cases hji : j = i
  · by_cases hki : k = i
    · rw [hji, hki]
    · rw [Function.update_noteq hki] at hk
      exact absurd hk (hothers k hki rk)
  · rw [Function.update_noteq hji] at hj
    exact absurd hj (hothers j hji rj)

/-- The protocol invariant is preserved by every global step. -/
theorem inv_step {V : Type} {oc : Nat → COutcome V} {s s' : GState V}
    (hinv : Inv oc s) (h : GStep oc s s') : Inv oc s' := by
  cases h with
  | bump =>
    exact ⟨fun i => pcOk_mono (hinv.pcOk i) (Nat.le_succ _) (Nat.le_refl _),
      cellOk_mono hinv.cellOk (Nat.le_succ _), hinv.uniq⟩
  | task i p c nc ht =>
    generalize hpi : s.pc i = p0 at ht
    cases ht with
    | readClock c nc =>
      refine inv_update (pcOk_classify (Nat.le_refl _))
        (fun j _ => hinv.pcOk j) hinv.cellOk
        (uniq_update_not_computing hinv.uniq (by intro rev; simp))
    | classifyReady rev v c nc hobs =>
      obtain ⟨deps, hcellEq⟩ := observe_ready_eq hobs
      refine inv_update
        (pcOk_recheckReady ((hinv.pcOk i).revLe rev (by rw [hpi]; rfl))
          ⟨deps, (hinv.cellOk.ready v rev deps hcellEq).2⟩)
        (fun j _ => hinv.pcOk j) hinv.cellOk
        (uniq_update_not_computing hinv.uniq (by intro r; simp))
    | classifyErr rev e c nc hobs =>
      have hcellEq := observe_error_eq hobs
      refine inv_update
        (pcOk_recheckErr ((hinv.pcOk i).revLe rev (by rw [hpi]; rfl))
          (hinv.cellOk.poisoned e rev hcellEq).2)
        (fun j _ => hinv.pcOk j) hinv.cellOk
        (uniq_update_not_computing hinv.uniq (by intro r; simp))
    | classifyRunning rev c nc hobs =>
      refine inv_update
        (pcOk_waiting ((hinv.pcOk i).revLe rev (by rw [hpi]; rfl))
          (Nat.le_refl _))
        (fun j _ => hinv.pcOk j) hinv.cellOk
        (uniq_update_not_computing hinv.uniq (by intro r; simp))
    | classifyStale rev c nc hobs =>
      refine inv_update
        (pcOk_takeJob ((hinv.pcOk i).revLe rev (by rw [hpi]; rfl)))
        (fun j _ => hinv.pcOk j) hinv.cellOk
        (uniq_update_not_computing hinv.uniq (by intro r; simp))
    | recheckReadyHit rev v c nc hclk =>
      obtain ⟨deps, hoc⟩ := (hinv.pcOk i).rr rev v hpi
      refine inv_update
        (pcOk_ret ((hinv.pcOk i).revLe rev (by rw [hpi]; rfl))
          (by rw [hoc]; rfl))
        (fun j _ => hinv.pcOk j) hinv.cellOk
        (uniq_update_not_computing hinv.uniq (by intro r; simp))
    | recheckReadyMiss rev v c nc hclk =>
      refine inv_update pcOk_top (fun j _ => hinv.pcOk j) hinv.cellOk
        (uniq_update_not_computing hinv.uniq (by intro r; simp))
    | recheckErrHit rev e c nc hclk =>
      have hoc := (hinv.pcOk i).re rev e hpi
      refine inv_update
        (pcOk_ret ((hinv.pcOk i).revLe rev (by rw [hpi]; rfl))
          (errMatches_resultOf hoc).symm)
        (fun j _ => hinv.pcOk j) hinv.cellOk
        (uniq_update_not_computing hinv.uniq (by intro r; simp))
    | recheckErrMiss rev e c nc hclk =>
      refine inv_update pcOk_top (fun j _ => hinv.pcOk j) hinv.cellOk
        (uniq_update_not_computing hinv.uniq (by intro r; simp))
    | wake rev n c nc hn =>
      refine inv_update pcOk_top (fun j _ => hinv.pcOk j) hinv.cellOk
        (uniq_update_not_computing hinv.uniq (by intro r; simp))
    | takeJobWin rev c nc htake =>
      have hnotComp : ∀ j, j ≠ i → ∀ r, s.pc j ≠ .computing r := by
        intro j _ r hj
        exact canTake_not_running htake r ((hinv.pcOk j).comp r hj)
      refine inv_update
        (pcOk_computing ((hinv.pcOk i).revLe rev (by rw [hpi]; rfl)) rfl)
        (fun j hj => pcOk_cell_change (hinv.pcOk j)
          (fun r hr => hnotComp j hj r hr) (Nat.le_refl _))
        cellOk_running (uniq_update_sole hnotComp)
    | takeJobLose rev c nc htake =>
      refine inv_update pcOk_top (fun j _ => hinv.pcOk j) hinv.cellOk
        (uniq_update_not_computing hinv.uniq (by intro r; simp))
    | finalizeOk rev v deps c nc hoc =>
      have hrev := (hinv.pcOk i).revLe rev (by rw [hpi]; rfl)
      have hnotComp : ∀ j, j ≠ i → ∀ r, s.pc j ≠ .computing r := by
        intro j hj r hjc
        exact hj (hinv.uniq j i r rev hjc hpi)
      refine inv_update (pcOk_staleOk hrev ⟨deps, hoc⟩)
        (fun j hj => pcOk_cell_change (hinv.pcOk j)
          (fun r hr => hnotComp j hj r hr) (Nat.le_succ _))
        ⟨?_, ?_⟩ (uniq_update_sole hnotComp)
      · intro v' vAt' deps' hr
        simp only [State.ready.injEq] at hr
        refine ⟨hr.2.1 ▸ hrev, ?_⟩
        rw [← hr.2.1, ← hr.1, ← hr.2.2]; exact hoc
      · intro e vAt hr; simp at hr
    | finalizeErr rev e c nc hoc =>
      have hrev := (hinv.pcOk i).revLe rev (by rw [hpi]; rfl)
      have hnotComp : ∀ j, j ≠ i → ∀ r, s.pc j ≠ .computing r := by
        intro j hj r hjc
        exact hj (hinv.uniq j i r rev hjc hpi)
      refine inv_update (pcOk_staleErr hrev (Or.inl hoc))
        (fun j hj => pcOk_cell_change (hinv.pcOk j)
          (fun r hr => hnotComp j hj r hr) (Nat.le_succ _))
        ⟨?_, ?_⟩ (uniq_update_sole hnotComp)
      · intro v' vAt' deps' hr; simp at hr
      · intro e' vAt hr
        simp only [State.poisoned.injEq] at hr
        refine ⟨hr.2 ▸ hrev, ?_⟩
        rw [← hr.2, ← hr.1]; exact Or.inl hoc
    | finalizePanic rev m c nc hoc =>
      have hrev := (hinv.pcOk i).revLe rev (by rw [hpi]; rfl)
      have hnotComp : ∀ j, j ≠ i → ∀ r, s.pc j ≠ .computing r := by
        intro j hj r hjc
        exact hj (hinv.uniq j i r rev hjc hpi)
      refine inv_update (pcOk_staleErr hrev (Or.inr ⟨m, hoc, rfl⟩))
        (fun j hj => pcOk_cell_change (hinv.pcOk j)
          (fun r hr => hnotComp j hj r hr) (Nat.le_succ _))
        ⟨?_, ?_⟩ (uniq_update_sole hnotComp)
      · intro v' vAt' deps' hr; simp at hr
      · intro e' vAt hr
        simp only [State.poisoned.injEq] at hr
        refine ⟨hr.2 ▸ hrev, ?_⟩
        rw [← hr.2, ← hr.1]; exact Or.inr ⟨m, hoc, rfl⟩
    | staleOkHit rev v c nc hclk =>
      obtain ⟨deps, hoc⟩ := (hinv.pcOk i).so rev v hpi
      refine inv_update
        (pcOk_ret ((hinv.pcOk i).revLe rev (by rw [hpi]; rfl))
          (by rw [hoc]; rfl))
        (fun j _ => hinv.pcOk j) hinv.cellOk
        (uniq_update_not_computing hinv.uniq (by intro r; simp))
    | staleOkMiss rev v c nc hclk =>
      refine inv_update pcOk_top (fun j _ => hinv.pcOk j) hinv.cellOk
        (uniq_update_not_computing hinv.uniq (by intro r; simp))
    | staleErrHit rev e c nc hclk =>
      have hoc := (hinv.pcOk i).se rev e hpi
      refine inv_update
        (pcOk_ret ((hinv.pcOk i).revLe rev (by rw [hpi]; rfl))
          (errMatches_resultOf hoc).symm)
        (fun j _ => hinv.pcOk j) hinv.cellOk
        (uniq_update_not_computing hinv.uniq (by intro r; simp))
    | staleErrMiss rev e c nc hclk =>
      refine inv_update pcOk_top (fun j _ => hinv.pcOk j) hinv.cellOk
        (uniq_update_not_computing hinv.uniq (by intro r; simp))

/-- Every reachable protocol state satisfies the invariant. -/
theorem reachable_inv {V : Type} {oc : Nat → COutcome V} {s : GState V}
    (h : Reachable oc s) : Inv oc s := by
  induction h with
  | refl => exact inv_init oc
  | tail _ hstep ih => exact inv_step ih hstep

/-- A task about to run the observation re-check for `Ready` earlier observed
the cell `Ready` at its revision, while it was at the classify point. -/
theorem recheckReady_history {V : Type} {oc : Nat → COutcome V}
    {s : GState V} {i rev : Nat} {v : V} (h : Reachable oc s)
    (hpc : s.pc i = .recheckReady rev v) :
    ∃ mid : GState V, Reachable oc mid ∧
      Relation.ReflTransGen (GStep oc) mid s ∧
      mid.pc i = .classify rev ∧ ∃ deps, mid.cell = .ready v rev deps := by
  revert hpc
  induction h with
  | refl => intro hpc; simp [init] at hpc
  | @tail b sN hpref hstep ih =>
    intro hpc
    have hstep' := hstep
    cases hstep with
    | bump =>
      obtain ⟨mid, hm1, hm2, hm3, hm4⟩ := ih hpc
      exact ⟨mid, hm1, hm2.tail hstep', hm3, hm4⟩
    | task j p c nc ht =>
      by_cases hij : i = j
      · subst hij
        rw [show (⟨b.clock, c, Function.update b.pc i p, nc⟩ :
            GState V).pc i = p from Function.update_same ..] at hpc
        subst hpc
        generalize hpi : b.pc i = p0 at ht
        cases ht with
        | classifyReady rev' v' c nc hobs =>
          obtain ⟨deps, hcell⟩ := observe_ready_eq hobs
          exact ⟨b, hpref, Relation.ReflTransGen.single hstep', hpi,
            deps, hcell⟩
      · rw [show (⟨b.clock, c, Function.update b.pc j p, nc⟩ :
            GState V).pc i = b.pc i from Function.update_noteq hij ..] at hpc
        obtain ⟨mid, hm1, hm2, hm3, hm4⟩ := ih hpc
        exact ⟨mid, hm1, hm2.tail hstep', hm3, hm4⟩

/-- A task at the post-compute stale re-check finalized its cell to `Ready`
at its revision: at that finalization moment the cell held its value. -/
theorem staleOk_history {V : Type} {oc : Nat → COutcome V}
    {s : GState V} {i rev : Nat} {v : V} (h : Reachable oc s)
    (hpc : s.pc i = .staleOk rev v) :
    ∃ mid : GState V, Reachable oc mid ∧
      Relation.ReflTransGen (GStep oc) mid s ∧
      mid.pc i = .staleOk rev v ∧ ∃ deps, mid.cell = .ready v rev deps := by
  revert hpc
  induction h with
  | refl => intro hpc; simp [init] at hpc
  | @tail b sN hpref hstep ih =>
    intro hpc
    have hstep' := hstep
    cases hstep with
    | bump =>
      obtain ⟨mid, hm1, hm2, hm3, hm4⟩ := ih hpc
      exact ⟨mid, hm1, hm2.tail hstep', hm3, hm4⟩
    | task j p c nc ht =>
      by_cases hij : i = j
      · subst hij
        rw [show (⟨b.clock, c, Function.update b.pc i p, nc⟩ :
            GState V).pc i = p from Function.update_same ..] at hpc
        subst hpc
        generalize hpi : b.pc i = p0 at ht
        cases ht with
        | finalizeOk rev' v' deps c nc hoc =>
          refine ⟨_, hpref.tail hstep', Relation.ReflTransGen.refl,
            Function.update_same .., deps, rfl⟩
      · rw [show (⟨b.clock, c, Function.update b.pc j p, nc⟩ :
            GState V).pc i = b.pc i from Function.update_noteq hij ..] at hpc
        obtain ⟨mid, hm1, hm2, hm3, hm4⟩ := ih hpc
        exact ⟨mid, hm1, hm2.tail hstep', hm3, hm4⟩

/-- C1 (freshness of derived results).  Whenever a `get` call returns
`Ok(v)` — i.e. a step moves some task to `ret rev (.ok v)`, which the source
does only at the observation-loop re-check (line 131) and the post-compute
stale re-check (line 206) — the clock read `rev` immediately before the
return, and there was a moment during the call (a state `mid` on the
execution path) at which the clock read `rev` and the cell was
`Ready { value := v, verified_at := rev }`. -/
theorem derived_get_freshness {V : Type} {oc : Nat → COutcome V}
    {s s' : GState V} {i rev : Nat} {v : V}
    (hreach : Reachable oc s) (hstep : GStep oc s s')
    (hret : s'.pc i = .ret rev (.ok v)) (hnew : s.pc i ≠ .ret rev (.ok v)) :
    s.clock = rev ∧ ∃ mid : GState V, Reachable oc mid ∧
      Relation.ReflTransGen (GStep oc) mid s ∧ mid.clock = rev ∧
      ∃ deps, mid.cell = .ready v rev deps := by
  have hstep' := hstep
  cases hstep with
  | bump => exact absurd hret hnew
  | task j p c nc ht =>
    by_cases hij : i = j
    · subst hij
      rw [show (⟨s.clock, c, Function.update s.pc i p, nc⟩ :
          GState V).pc i = p from Function.update_same ..] at hret
      subst hret
      generalize hpi : s.pc i = p0 at ht
      cases ht with
      | recheckReadyHit rev' v' c nc hclk =>
        refine ⟨hclk, ?_⟩
        obtain ⟨mid, hm1, hm2, hm3, hm4⟩ := recheckReady_history hreach hpi
        have h1 : rev ≤ mid.clock :=
          ((reachable_inv hm1).pcOk i).revLe rev (by rw [hm3]; rfl)
        have h2 : mid.clock ≤ s.clock := clock_mono_many hm2
        exact ⟨mid, hm1, hm2, by omega, hm4⟩
      | staleOkHit rev' v' c nc hclk =>
        refine ⟨hclk, ?_⟩
        obtain ⟨mid, hm1, hm2, hm3, hm4⟩ := staleOk_history hreach hpi
        have h1 : rev ≤ mid.clock :=
          ((reachable_inv hm1).pcOk i).revLe rev (by rw [hm3]; rfl)
        have h2 : mid.clock ≤ s.clock := clock_mono_many hm2
        exact ⟨mid, hm1, hm2, by omega, hm4⟩
    · rw [show (⟨s.clock, c, Function.update s.pc j p, nc⟩ :
          GState V).pc i = s.pc i from Function.update_noteq hij ..] at hret
      exact absurd hret hnew

/-- Compute outcome used by concrete executions: every revision computes
`42` with no dependencies. -/
def ocOkNat : Nat → COutcome Nat := fun _ => .ok 42 []

/-- Concrete execution: after reading the clock. -/
def c1s1 : GState Nat :=
  ⟨0, .vacant, Function.update (fun _ => .top) 0 (.classify 0), 0⟩

/-- Concrete execution: after classifying the vacant cell as stale. -/
def c1s2 : GState Nat :=
  ⟨0, .vacant, Function.update c1s1.pc 0 (.takeJob 0), 0⟩

/-- Concrete execution: after winning take-the-job. -/
def c1s3 : GState Nat :=
  ⟨0, .running 0, Function.update c1s2.pc 0 (.computing 0), 0⟩

/-- Concrete execution: after the compute finalized `Ready 42` at rev 0. -/
def c1s4 : GState Nat :=
  ⟨0, .ready 42 0 [], Function.update c1s3.pc 0 (.staleOk 0 42), 1⟩

/-- Concrete execution: after the stale re-check returned `Ok 42`. -/
def c1s5 : GState Nat :=
  ⟨0, .ready 42 0 [], Function.update c1s4.pc 0 (.ret 0 (.ok 42)), 1⟩

theorem c1s4_reachable : Reachable ocOkNat c1s4 := by
  have h1 : GStep ocOkNat (init Nat) c1s1 :=
    GStep.task (init Nat) 0 (.classify 0) .vacant 0
      (TaskStep.readClock .vacant 0)
  have h2 : GStep ocOkNat c1s1 c1s2 :=
    GStep.task c1s1 0 (.takeJob 0) .vacant 0
      (TaskStep.classifyStale 0 .vacant 0 rfl)
  have h3 : GStep ocOkNat c1s2 c1s3 :=
    GStep.task c1s2 0 (.computing 0) (.running 0) 0
      (TaskStep.takeJobWin 0 .vacant 0 rfl)
  have h4 : GStep ocOkNat c1s3 c1s4 :=
    GStep.task c1s3 0 (.staleOk 0 42) (.ready 42 0 []) 1
      (TaskStep.finalizeOk 0 42 [] (.running 0) 0 rfl)
  exact (((Relation.ReflTransGen.single h1).tail h2).tail h3).tail h4

/-- Witness for C1: a concrete single-task execution that computes 42 at
revision 0 and returns it; the freshness theorem applies and its conclusion
holds there. -/
theorem derived_get_freshness_witness :
    c1s4.clock = 0 ∧ ∃ mid : GState Nat, Reachable ocOkNat mid ∧
      Relation.ReflTransGen (GStep ocOkNat) mid c1s4 ∧ mid.clock = 0 ∧
      ∃ deps, mid.cell = .ready 42 0 deps :=
  derived_get_freshness (i := 0) c1s4_reachable
    (GStep.task c1s4 0 (.ret 0 (.ok 42)) (.ready 42 0 []) 1
      (TaskStep.staleOkHit 0 42 (.ready 42 0 []) 1 rfl))
    (by simp [c1s4]) (by simp [c1s4, c1s3, c1s2, c1s1])

/-- C2 (single-flight).  In every reachable protocol state: at most one task
is inside the compute section for the cell; that task is the one whose
take-the-job transition moved the cell to `Running { started_at := rev }`
while holding the lock — witnessed by the cell being `Running` stamped with
its revision for as long as it computes (no other step can produce or clear
`Running`); and any two peers whose calls returned at the same observed
revision received the same value or the same shared error. -/
theorem derived_get_single_flight {V : Type} {oc : Nat → COutcome V}
    {s : GState V} (hreach : Reachable oc s) :
    (∀ i j ri rj, s.pc i = .computing ri → s.pc j = .computing rj → i = j) ∧
    (∀ i ri, s.pc i = .computing ri → s.cell = .running ri) ∧
    (∀ i j rev r r', s.pc i = .ret rev r → s.pc j = .ret rev r' → r = r') :=
  have hinv := reachable_inv hreach
  ⟨hinv.uniq, fun i ri hi => ((hinv.pcOk i).comp ri hi),
    fun i j rev r r' hi hj => by
      rw [(hinv.pcOk i).rt rev r hi, (hinv.pcOk j).rt rev r' hj]⟩

/-- Witness for C2: the single-flight theorem instantiated at the concrete
reachable state `c1s3`, in which task 0 is computing. -/
theorem derived_get_single_flight_witness :
    (∀ i j ri rj, c1s3.pc i = .computing ri → c1s3.pc j = .computing rj →
      i = j) ∧
    (∀ i ri, c1s3.pc i = .computing ri → c1s3.cell = .running ri) ∧
    (∀ i j rev r r', c1s3.pc i = .ret rev r → c1s3.pc j = .ret rev r' →
      r = r') := by
  have h3 : Reachable ocOkNat c1s3 := by
    have h1 : GStep ocOkNat (init Nat) c1s1 :=
      GStep.task (init Nat) 0 (.classify 0) .vacant 0
        (TaskStep.readClock .vacant 0)
    have h2 : GStep ocOkNat c1s1 c1s2 :=
      GStep.task c1s1 0 (.takeJob 0) .vacant 0
        (TaskStep.classifyStale 0 .vacant 0 rfl)
    have h3 : GStep ocOkNat c1s2 c1s3 :=
      GStep.task c1s2 0 (.computing 0) (.running 0) 0
        (TaskStep.takeJobWin 0 .vacant 0 rfl)
    exact ((Relation.ReflTransGen.single h1).tail h2).tail h3
  exact derived_get_single_flight h3

/-- C4 (panic containment).  If a task is computing at revision `rev` and
the compute panics with message `m`, then: (a) the only action available to
that task is the unwind-catching finalization, which sets the cell to
`Poisoned { error := Panic m, verified_at := rev }` — the cell is never left
`Running`; (b) that finalization step exists, and after it every waiter that
was registered on the cell before the transition has its wake-up step
enabled; (c) from any later reachable state in which the cell is still so
poisoned and the clock has advanced past `rev`, a task at the top of its
call can re-run the compute in three steps (classify stale, take the job,
start computing). -/
theorem derived_panic_containment {V : Type} {oc : Nat → COutcome V}
    {s : GState V} {i rev : Nat} {m : String}
    (hreach : Reachable oc s) (hcomp : s.pc i = .computing rev)
    (hpanic : oc rev = .panicked m) :
    (∀ p c nc, TaskStep oc s.clock (s.pc i) s.cell s.notifyCount p c nc →
      p = .staleErr rev (.Panic m) ∧ c = .poisoned (.Panic m) rev ∧
        nc = s.notifyCount + 1) ∧
    (∃ s' : GState V, GStep oc s s' ∧
      s'.cell = .poisoned (.Panic m) rev ∧
      s'.pc i = .staleErr rev (.Panic m) ∧
      s'.notifyCount = s.notifyCount + 1 ∧
      (∀ j rev' n, s.pc j = .waiting rev' n → s'.pc j = .waiting rev' n ∧
        GStep oc s'
          ⟨s'.clock, s'.cell, Function.update s'.pc j .top,
            s'.notifyCount⟩)) ∧
    (∀ s₂ : GState V, ∀ k rev', Reachable oc s₂ →
      s₂.cell = .poisoned (.Panic m) rev → s₂.clock = rev' → rev < rev' →
      s₂.pc k = .top →
      ∃ s₃ s₄ s₅ : GState V, GStep oc s₂ s₃ ∧ GStep oc s₃ s₄ ∧
        GStep oc s₄ s₅ ∧ s₅.pc k = .computing rev' ∧
        s₅.cell = .running rev') := by
  refine ⟨?_, ?_, ?_⟩
  · intro p c nc ht
    rw [hcomp] at ht
    cases ht with
    | finalizeOk rev' v deps c nc hoc => rw [hpanic] at hoc; exact absurd hoc (by simp)
    | finalizeErr rev' e c nc hoc => rw [hpanic] at hoc; exact absurd hoc (by simp)
    | finalizePanic rev' m' c nc hoc =>
      rw [hpanic] at hoc
      obtain rfl : m = m' := by
        simpa using hoc
      exact ⟨rfl, rfl, rfl⟩
  · refine ⟨⟨s.clock, .poisoned (.Panic m) rev,
      Function.update s.pc i (.staleErr rev (.Panic m)),
      s.notifyCount + 1⟩, ?_, rfl, Function.update_same .., rfl, ?_⟩
    · have ht : TaskStep oc s.clock (s.pc i) s.cell s.notifyCount
          (.staleErr rev (.Panic m)) (.poisoned (.Panic m) rev)
          (s.notifyCount + 1) := by
        rw [hcomp]
        exact TaskStep.finalizePanic rev m s.cell s.notifyCount hpanic
      exact GStep.task s i _ _ _ ht
    · intro j rev' n hwait
      have hij : j ≠ i := by
        intro hji; rw [hji, hcomp] at hwait; exact absurd hwait (by simp)
      have hpcj : Function.update s.pc i
          (.staleErr rev (.Panic m)) j = s.pc j :=
        Function.update_noteq hij _ _
      refine ⟨hpcj.trans hwait, ?_⟩
      have hn : n ≤ s.notifyCount :=
        ((reachable_inv hreach).pcOk j).wt rev' n hwait
      have hw : TaskStep oc s.clock
          (Function.update s.pc i (.staleErr rev (.Panic m)) j)
          (.poisoned (.Panic m) rev) (s.notifyCount + 1) .top
          (.poisoned (.Panic m) rev) (s.notifyCount + 1) := by
        rw [hpcj, hwait]
        exact TaskStep.wake rev' n _ _ (by omega)
      exact GStep.task _ j _ _ _ hw
  · intro s₂ k rev' hreach₂ hcell₂ hclk₂ hlt hk
    refine ⟨⟨s₂.clock, s₂.cell, Function.update s₂.pc k (.classify rev'), s₂.notifyCount⟩,
      ⟨s₂.clock, s₂.cell, Function.update (Function.update s₂.pc k
        (.classify rev')) k (.takeJob rev'), s₂.notifyCount⟩,
      ⟨s₂.clock, .running rev', Function.update (Function.update
        (Function.update s₂.pc k (.classify rev')) k (.takeJob rev')) k
        (.computing rev'), s₂.notifyCount⟩, ?_, ?_, ?_,
      Function.update_same .., rfl⟩
    · have ht : TaskStep oc s₂.clock (s₂.pc k) s₂.cell s₂.notifyCount
          (.classify rev') s₂.cell s₂.notifyCount := by
        rw [hk, ← hclk₂]; exact TaskStep.readClock _ _
      exact GStep.task s₂ k _ _ _ ht
    · have ht : TaskStep oc s₂.clock
          (Function.update s₂.pc k (.classify rev') k) s₂.cell
          s₂.notifyCount (.takeJob rev') s₂.cell s₂.notifyCount := by
        rw [Function.update_same, hcell₂]
        exact TaskStep.classifyStale rev' _ _
          (by simp [observe]; omega)
      exact GStep.task ⟨s₂.clock, s₂.cell, Function.update s₂.pc k
        (.classify rev'), s₂.notifyCount⟩ k _ _ _ ht
    · have ht : TaskStep oc s₂.clock
          (Function.update (Function.update s₂.pc k (.classify rev')) k
            (.takeJob rev') k) s₂.cell s₂.notifyCount
          (.computing rev') (.running rev') s₂.notifyCount := by
        rw [Function.update_same, hcell₂]
        exact TaskStep.takeJobWin rev' _ _ (by simp [canTake]; omega)
      exact GStep.task ⟨s₂.clock, s₂.cell, Function.update
        (Function.update s₂.pc k (.classify rev')) k (.takeJob rev'),
        s₂.notifyCount⟩ k (.computing rev') (.running rev')
        s₂.notifyCount ht

/-- Compute outcome that panics with message `boom` at every revision. -/
def ocPanicNat : Nat → COutcome Nat := fun _ => .panicked "boom"

theorem c1s3_reachable_panic : Reachable ocPanicNat c1s3 := by
  have h1 : GStep ocPanicNat (init Nat) c1s1 :=
    GStep.task (init Nat) 0 (.classify 0) .vacant 0
      (TaskStep.readClock .vacant 0)
  have h2 : GStep ocPanicNat c1s1 c1s2 :=
    GStep.task c1s1 0 (.takeJob 0) .vacant 0
      (TaskStep.classifyStale 0 .vacant 0 rfl)
  have h3 : GStep ocPanicNat c1s2 c1s3 :=
    GStep.task c1s2 0 (.computing 0) (.running 0) 0
      (TaskStep.takeJobWin 0 .vacant 0 rfl)
  exact ((Relation.ReflTransGen.single h1).tail h2).tail h3

/-- Witness for C4: the panic-containment theorem applied to the concrete
reachable state in which task 0 computes at revision 0 and the compute
panics with `boom`. -/
theorem derived_panic_containment_witness :
    (∀ p c nc, TaskStep ocPanicNat c1s3.clock (c1s3.pc 0) c1s3.cell
        c1s3.notifyCount p c nc →
      p = .staleErr 0 (.Panic "boom") ∧ c = .poisoned (.Panic "boom") 0 ∧
        nc = c1s3.notifyCount + 1) ∧
    (∃ s' : GState Nat, GStep ocPanicNat c1s3 s' ∧
      s'.cell = .poisoned (.Panic "boom") 0 ∧
      s'.pc 0 = .staleErr 0 (.Panic "boom") ∧
      s'.notifyCount = c1s3.notifyCount + 1 ∧
      (∀ j rev' n, c1s3.pc j = .waiting rev' n →
        s'.pc j = .waiting rev' n ∧
        GStep ocPanicNat s'
          ⟨s'.clock, s'.cell, Function.update s'.pc j .top,
            s'.notifyCount⟩)) ∧
    (∀ s₂ : GState Nat, ∀ k rev', Reachable ocPanicNat s₂ →
      s₂.cell = .poisoned (.Panic "boom") 0 → s₂.clock = rev' → 0 < rev' →
      s₂.pc k = .top →
      ∃ s₃ s₄ s₅ : GState Nat, GStep ocPanicNat s₂ s₃ ∧
        GStep ocPanicNat s₃ s₄ ∧ GStep ocPanicNat s₄ s₅ ∧
        s₅.pc k = .computing rev' ∧ s₅.cell = .running rev') :=
  derived_panic_containment c1s3_reachable_panic
    (by simp [c1s3, c1s2, c1s1]) rfl

/-- Compute outcome that returns (propagates) a `Cycle` error at every
revision — the situation of a compute function that calls `get` on a key
already on its own stack and forwards the resulting error. -/
def ocCycNat : Nat → COutcome Nat := fun _ => .err (.Cycle (1, [0]) [(1, [0])])

/-- The state after such a compute is finalized: the cell is `Poisoned`
holding the `Cycle` error. -/
def cycS4 : GState Nat :=
  ⟨0, .poisoned (.Cycle (1, [0]) [(1, [0])]) 0,
    Function.update c1s3.pc 0 (.staleErr 0 (.Cycle (1, [0]) [(1, [0])])), 1⟩

/-- Counterexample for C5: the engine does store a `Cycle` error in a cell.
A compute that propagates the `Cycle` error of an inner `get` (outcome
`ocCycNat`) is finalized through the `Ok(Err(err))` arm of `get_scoped`
(derived.rs line 211), which stores the error — whatever its variant — into
the cell as `Poisoned`.  The state `cycS4`, reachable in four steps, has the
cell `Poisoned { error := Cycle .. }`, refuting "a Cycle error is never
stored in any cell". -/
theorem cycle_stored_in_cell_counterexample :
    Reachable ocCycNat cycS4 ∧
      cycS4.cell = .poisoned (.Cycle (1, [0]) [(1, [0])]) 0 := by
  refine ⟨?_, rfl⟩
  have h1 : GStep ocCycNat (init Nat) c1s1 :=
    GStep.task (init Nat) 0 (.classify 0) .vacant 0
      (TaskStep.readClock .vacant 0)
  have h2 : GStep ocCycNat c1s1 c1s2 :=
    GStep.task c1s1 0 (.takeJob 0) .vacant 0
      (TaskStep.classifyStale 0 .vacant 0 rfl)
  have h3 : GStep ocCycNat c1s2 c1s3 :=
    GStep.task c1s2 0 (.computing 0) (.running 0) 0
      (TaskStep.takeJobWin 0 .vacant 0 rfl)
  have h4 : GStep ocCycNat c1s3 cycS4 :=
    GStep.task c1s3 0 (.staleErr 0 (.Cycle (1, [0]) [(1, [0])]))
      (.poisoned (.Cycle (1, [0]) [(1, [0])]) 0) 1
      (TaskStep.finalizeErr 0 (.Cycle (1, [0]) [(1, [0])]) (.running 0) 0
        rfl)
  exact (((Relation.ReflTransGen.single h1).tail h2).tail h3).tail h4

end Protocol

namespace Frames

/-- `frame.rs` `ActiveFrameHandle` (the file is not part of the provided
sources; Modelled from the spec, §4.3): a frame holds the `DynKey` being
computed, the revision it started at, and the ordered dependency edges
recorded while active.  A task's stack is a list with the innermost frame
at the head. -/
structure Frame where
  key : DynKey
  startedAt : Nat
  deps : List Dep
  deriving DecidableEq, Repr

/-- Modelled from the spec: §4.3 `has_active_frame()` — true if the current
task has any frame (`frame.rs` missing from the sources). -/
def hasActiveFrame (stack : List Frame) : Bool :=
  !stack.isEmpty

/-- Modelled from the spec: §4.3 `record_dep(dep)` — "append to the
innermost frame's dep list; no-op when no frame" (`frame.rs` missing from
the sources). -/
def recordDep (stack : List Frame) (d : Dep) : List Frame :=
  match stack with
  | [] => []
  | f :: rest => { f with deps := f.deps ++ [d] } :: rest

/-- Modelled from the spec: §4.3 `find_cycle(requested)` — "scan the current
task's frame stack; if any frame's DynKey equals `requested`, return a
snapshot of the stack (root-first).  Equality uses (kind, encoded bytes)"
(`frame.rs` missing from the sources). -/
def findCycle (stack : List Frame) (req : DynKey) : Option (List DynKey) :=
  if req ∈ stack.map Frame.key then some ((stack.map Frame.key).reverse)
  else none

/-- The `or_insert_with(Cell::new)` entry of the cells map (`derived.rs`
lines 89-93): get-or-create, inserting a `Vacant` cell when absent.  The
typed key is represented by its encoded bytes (the codec is deterministic
and injective per the spec's §4.2 contract). -/
def entryOrInsert {V : Type} (cells : List (Key × Protocol.State V))
    (k : Key) : List (Key × Protocol.State V) :=
  if (cells.map Prod.fst).contains k then cells else cells ++ [(k, .vacant)]

/-- The pre-loop section of `DerivedIngredient::get_scoped` (`derived.rs`
lines 62-93): form `requested`, check for a cycle (failing *before* the
cells map is consulted), record a dependency edge into the parent frame if
one is active, then get-or-create the cell.  Returns the task's frame stack,
the cells map, and the early-exit result. -/
def getPrelude {V : Type} (kind : Nat) (keyBytes : Key) (stack : List Frame)
    (cells : List (Key × Protocol.State V)) :
    List Frame × List (Key × Protocol.State V) × Except PicanteError Unit :=
  match findCycle stack (kind, keyBytes) with
  | some st => (stack, cells, .error (.Cycle (kind, keyBytes) st))
  | none =>
    let stack' := if hasActiveFrame stack then recordDep stack (kind, keyBytes)
      else stack
    (stack', entryOrInsert cells keyBytes, .ok ())

/-- C5 (amended: cycle errors bypass the requested cell).  When the
requested `(kind, encoded key)` matches a frame already on the current
task's stack, `get` fails with `Cycle { requested, stack }` (root-first
snapshot) before the cells map is looked up or modified: the stack and the
cells map are returned unchanged and no cell is created or written by this
call.  (The original claim's further assertion that a `Cycle` error is
never stored in *any* cell fails: see the counterexample, where a compute
that propagates an inner `Cycle` error gets it stored as `Poisoned`.) -/
theorem derived_get_cycle_bypass {V : Type} (kind : Nat) (keyBytes : Key)
    (stack : List Frame) (cells : List (Key × Protocol.State V))
    (h : (kind, keyBytes) ∈ stack.map Frame.key) :
    getPrelude kind keyBytes stack cells =
      (stack, cells,
        .error (.Cycle (kind, keyBytes) ((stack.map Frame.key).reverse))) := by
  simp [getPrelude, findCycle, h]

/-- Witness for C5's amended theorem: a task whose stack already holds the
requested key `(1, [0])`; the prelude fails with the cycle error and leaves
the (nonempty) cells map untouched. -/
theorem derived_get_cycle_bypass_witness :
    getPrelude 1 [0] [⟨(1, [0]), 0, []⟩]
        [([5], Protocol.State.ready 7 0 [])] =
      ([⟨(1, [0]), 0, []⟩], [([5], Protocol.State.ready (7 : Nat) 0 [])],
        .error (.Cycle (1, [0]) [(1, [0])])) :=
  derived_get_cycle_bypass 1 [0] [⟨(1, [0]), 0, []⟩]
    [([5], Protocol.State.ready 7 0 [])] (by simp)

/-- `InternedIngredient::get` (`interned.rs` lines 83-104): when the task
has an active frame, record a dependency edge `(kind, encode(id))` into the
innermost frame *before* looking the id up; then return the value or fail
with `MissingInternedValue`.  `enc` is the opaque deterministic id codec
(`Key::encode_facet`, total on `u32` ids). -/
def internedGet {K : Type} (enc : Nat → Key) (kind : Nat)
    (byId : List (Nat × K)) (stack : List Frame) (id : Nat) :
    List Frame × Except PicanteError K :=
  let stack' := if hasActiveFrame stack then recordDep stack (kind, enc id)
    else stack
  match byId.lookup id with
  | some v => (stack', .ok v)
  | none => (stack', .error (.MissingInternedValue kind id))

/-- C10 (interned `get` records the dependency before the lookup).  With an
active frame, the dependency edge `(kind, enc id)` is appended to the
innermost frame's dep list, and this happens whether or not the id is
present — in particular, when the lookup fails the call returns
`MissingInternedValue { kind, id }` with the dependency still recorded. -/
theorem interned_get_records_dep {K : Type} (enc : Nat → Key) (kind : Nat)
    (byId : List (Nat × K)) (f : Frame) (rest : List Frame) (id : Nat) :
    (internedGet enc kind byId (f :: rest) id).1 =
      { f with deps := f.deps ++ [(kind, enc id)] } :: rest ∧
    (byId.lookup id = none →
      (internedGet enc kind byId (f :: rest) id).2 =
        .error (.MissingInternedValue kind id)) := by
  constructor
  · cases h : byId.lookup id <;>
      simp [internedGet, hasActiveFrame, recordDep, h]
  · intro h
    simp [internedGet, hasActiveFrame, recordDep, h]

/-- Witness for C10: a concrete lookup of an unknown id 7 on interned kind 1
from inside an active frame; the dependency `(1, enc 7)` is recorded and the
call fails with `MissingInternedValue`. -/
theorem interned_get_records_dep_witness :
    (internedGet (K := Nat) (fun n => [n]) 1 [] [⟨(2, [9]), 0, []⟩] 7).1 =
      ({ key := (2, [9]), startedAt := 0, deps := [(1, [7])] } :
        Frame) :: [] ∧
    (internedGet (K := Nat) (fun n => [n]) 1 [] [⟨(2, [9]), 0, []⟩] 7).2 =
      .error (.MissingInternedValue 1 7) :=
  ⟨(interned_get_records_dep (fun n => [n]) 1 [] ⟨(2, [9]), 0, []⟩ [] 7).1,
    (interned_get_records_dep (fun n => [n]) 1 [] ⟨(2, [9]), 0, []⟩ [] 7).2
      rfl⟩

end Frames

namespace Persist

/-- Opaque decoded value payloads (the spec treats value serialization as an
opaque `(encode, decode)` pair; a byte vector stands for any decoded value). -/
abbrev Val := List Nat

/-- `persist.rs` lines 40-48, exactly as the source declares it: the
`SectionType` enum has only the `Input` and `Derived` variants. -/
inductive SectionTypeSrc where
  | Input
  | Derived
  deriving DecidableEq, Repr

/-- The `repr(u8)` discriminant of the source enum: `Input = 0`,
`Derived = 1`. -/
def SectionTypeSrc.code : SectionTypeSrc → Nat
  | .Input => 0
  | .Derived => 1

/-- C6.  The claim (and the spec) say `section_type` is a three-variant enum
`{ Input = 0, Derived = 1, Interned = 2 }`, and `interned.rs` line 126
returns `SectionType::Interned`; but the enum `persist.rs` actually declares
has only two variants, so no section type carries the code 2 and the
variant `InternedIngredient::section_type` names does not exist (the crate
cannot compile).  This theorem evaluates the source enum: no value of the
declared `SectionType` has discriminant 2. -/
theorem sectionTypeSrc_has_no_interned :
    ∀ st : SectionTypeSrc, SectionTypeSrc.code st ≠ 2 := by
  intro st; cases st <;> simp [SectionTypeSrc.code]

/-- Section type for persistence, as the rest of the crate requires it.
`Input` and `Derived` are `persist.rs` lines 40-48; the `Interned` variant
is Modelled from the spec (section 4.7: `enum { Input=0, Derived=1,
Interned=2 }`) — `interned.rs` line 126 uses it but the provided
`persist.rs` does not declare it. -/
inductive SectionType where
  | Input
  | Derived
  | Interned
  deriving DecidableEq, Repr

/-- Ingredient-defined records.  The source stores each record as an opaque
`facet-postcard` blob; here the decoded shapes are stored directly:
`input.rs` records (spec section 4.5: `(key, value, changed_at)`),
`derived.rs` `DerivedRecord` (lines 309-315), and `interned.rs`
`InternedRecord` (lines 107-111).  Feeding a record of the wrong shape to a
loader models a postcard decode failure. -/
inductive Rec where
  | inputRec (key : Key) (value : Val) (changedAt : Nat)
  | derivedRec (key : Key) (value : Val) (verifiedAt : Nat) (deps : List Dep)
  | internedRec (id : Nat) (value : Val)
  deriving DecidableEq, Repr

/-- `persist.rs` `Section` (lines 28-38). -/
structure Section where
  kindId : Nat
  kindName : String
  sectionType : SectionType
  records : List Rec
  deriving DecidableEq, Repr

/-- `persist.rs` `CacheFile` (lines 17-25); `FORMAT_VERSION = 1`. -/
structure CacheFile where
  formatVersion : Nat
  currentRevision : Nat
  sections : List Section
  deriving DecidableEq, Repr

/-- The in-memory state of one persistable ingredient.  `DashMap`s are
association lists in iteration order, with the usual distinct-keys
invariant:

* `input` — `InputIngredient` entries `key → (value, changed_at)` (the file
  `input.rs` is not in the provided sources; its persisted state is
  Modelled from the spec, section 4.5);
* `derived` — `DerivedIngredient::cells`, keyed by the (encoded) typed key;
* `interned` — `InternedIngredient`'s `by_value`, `by_id` and `next_id`. -/
inductive Ingr where
  | input (kindId : Nat) (kindName : String)
      (entries : List (Key × Val × Nat))
  | derived (kindId : Nat) (kindName : String)
      (cells : List (Key × Protocol.State Val))
  | interned (kindId : Nat) (kindName : String)
      (byValue : List (Key × Nat)) (byId : List (Nat × Val)) (nextId : Nat)
  deriving DecidableEq, Repr

/-- `PersistableIngredient::kind`. -/
def Ingr.kindId : Ingr → Nat
  | .input k _ _ => k
  | .derived k _ _ => k
  | .interned k _ _ _ _ => k

/-- `PersistableIngredient::kind_name`. -/
def Ingr.kindName : Ingr → String
  | .input _ n _ => n
  | .derived _ n _ => n
  | .interned _ n _ _ _ => n

/-- `PersistableIngredient::section_type` of each implementation
(`derived.rs` line 332, `interned.rs` line 126, input per spec). -/
def Ingr.sectionType : Ingr → SectionType
  | .input _ _ _ => .Input
  | .derived _ _ _ => .Derived
  | .interned _ _ _ _ _ => .Interned

/-- `PersistableIngredient::clear` of each implementation (`derived.rs`
line 335: clear the cells map; `interned.rs` lines 129-133: clear both maps
and reset `next_id` to 0; input per spec). -/
def Ingr.clear : Ingr → Ingr
  | .input k n _ => .input k n []
  | .derived k n _ => .derived k n []
  | .interned k n _ _ _ => .interned k n [] [] 0

/-- Insertion sort by interned id, embedding
`snapshot.sort_by_key(|(id, _)| id.0)` (`interned.rs` line 142) as a
structurally recursive stable sort. -/
def insertById (p : Nat × Val) : List (Nat × Val) → List (Nat × Val)
  | [] => [p]
  | q :: l => if p.1 ≤ q.1 then p :: q :: l else q :: insertById p l

def sortById : List (Nat × Val) → List (Nat × Val)
  | [] => []
  | p :: l => insertById p (sortById l)

/-- `PersistableIngredient::save_records` of each implementation:
input entries in map order (spec, section 4.5); `derived.rs` lines 339-389
(only `Ready` cells, others skipped); `interned.rs` lines 135-164 (the
`by_id` snapshot sorted by id). -/
def Ingr.saveRecords : Ingr → List Rec
  | .input _ _ entries =>
      entries.map fun e => .inputRec e.1 e.2.1 e.2.2
  | .derived _ _ cells =>
      cells.filterMap fun c =>
        match c.2 with
        | .ready v verifiedAt deps => some (.derivedRec c.1 v verifiedAt deps)
        | _ => none
  | .interned _ _ _ byId _ =>
      (sortById byId).map fun p => .internedRec p.1 p.2

/-- Map insert: replace in place if present, else append (`DashMap::insert`
keeping iteration position). -/
def insertA {κ β : Type} [DecidableEq κ] :
    List (κ × β) → κ → β → List (κ × β)
  | [], k, b => [(k, b)]
  | (k', b') :: rest, k, b =>
      if k' = k then (k, b) :: rest else (k', b') :: insertA rest k b

/-- Map lookup for the association-list maps (`DashMap::get` /
`contains_key`). -/
def lookupA {κ β : Type} [DecidableEq κ] : List (κ × β) → κ → Option β
  | [], _ => none
  | (k', b) :: rest, k => if k' = k then some b else lookupA rest k

/-- Input ingredient `load_records` (Modelled from the spec, section 4.5:
`input.rs` is not in the provided sources): decode each record and insert
the entry; a wrong-shaped record is a decode failure. -/
def inputLoadGo (entries : List (Key × Val × Nat)) :
    List Rec → List (Key × Val × Nat) × Option PicanteError
  | [] => (entries, none)
  | .inputRec k v c :: rs => inputLoadGo (insertA entries k (v, c)) rs
  | _ :: _ =>
      (entries, some (.Decode "input record" "unexpected record shape"))

/-- `DerivedIngredient::load_records` (`derived.rs` lines 391-413): decode
each `DerivedRecord` and insert a `Ready` cell. -/
def derivedLoadGo (cells : List (Key × Protocol.State Val)) :
    List Rec → List (Key × Protocol.State Val) × Option PicanteError
  | [] => (cells, none)
  | .derivedRec k v verifiedAt deps :: rs =>
      derivedLoadGo (insertA cells k (.ready v verifiedAt deps)) rs
  | _ :: _ =>
      (cells, some (.Decode "derived record" "unexpected record shape"))

/-- The `u32::MAX` bound of the interned id counter. -/
def u32Max : Nat := 2 ^ 32 - 1

/-- The loop body of `InternedIngredient::load_records` (`interned.rs`
lines 169-199): per record, update `max_id`, fail `Cache` on a duplicate id
(checked before any insert), insert into `by_value` — failing `Cache` when
the value's encoding was already present, with the map already mutated, as
`by_value.insert` does — then insert into `by_id`. -/
def internedLoadGo (enc : Val → Key) (byValue : List (Key × Nat))
    (byId : List (Nat × Val)) (maxId : Nat) :
    List Rec →
      (List (Key × Nat) × List (Nat × Val) × Nat) × Option PicanteError
  | [] => ((byValue, byId, maxId), none)
  | .internedRec id v :: rs =>
      let maxId' := max maxId id
      if (lookupA byId id).isSome then
        ((byValue, byId, maxId'), some (.Cache "duplicate interned id"))
      else
        match (lookupA byValue (enc v)).isSome with
        | true =>
            ((insertA byValue (enc v) id, byId, maxId'),
              some (.Cache "duplicate interned value"))
        | false =>
            internedLoadGo enc (insertA byValue (enc v) id)
              (insertA byId id v) maxId' rs
  | _ :: _ =>
      ((byValue, byId, maxId),
        some (.Decode "interned record" "unexpected record shape"))

/-- `PersistableIngredient::load_records` of each implementation.  For the
interned ingredient the source clears first (`interned.rs` line 167), folds
the records, and — only on success — stores
`max_id.saturating_add(1)` (`u32` saturation) into `next_id`; an early
error return leaves `next_id` at the cleared value 0.  `enc` is the opaque
deterministic value codec (`Key::encode_facet`). -/
def Ingr.loadRecords (enc : Val → Key) : Ingr → List Rec →
    Ingr × Option PicanteError
  | .input k n entries, rs =>
      let (entries', err) := inputLoadGo entries rs
      (.input k n entries', err)
  | .derived k n cells, rs =>
      let (cells', err) := derivedLoadGo cells rs
      (.derived k n cells', err)
  | .interned k n _ _ _, rs =>
      match internedLoadGo enc [] [] 0 rs with
      | ((bv, bi, maxId), none) =>
          (.interned k n bv bi (min (maxId + 1) u32Max), none)
      | ((bv, bi, _), some e) => (.interned k n bv bi 0, some e)

/-- `ensure_unique_kinds` (`persist.rs` lines 225-236): walk the ingredient
list with the set of seen kind ids, failing `Cache` on the first
duplicate. -/
def ensureUniqueKindsGo (seen : List Nat) : List Ingr → Option PicanteError
  | [] => none
  | i :: rest =>
      if seen.contains i.kindId then
        some (.Cache "duplicate ingredient kind id")
      else ensureUniqueKindsGo (i.kindId :: seen) rest

/-- The section `save_cache` builds for one ingredient (`persist.rs`
lines 78-86). -/
def secOf (i : Ingr) : Section :=
  ⟨i.kindId, i.kindName, i.sectionType, i.saveRecords⟩

/-- The pure part of `save_cache` (`persist.rs` lines 67-99): enforce unique
kind ids, snapshot every ingredient's records, and assemble the
`CacheFile { format_version = 1, current_revision, sections }` payload
(record/byte encodings are opaque and total). -/
def saveCacheFile (rev : Nat) (ings : List Ingr) :
    Except PicanteError CacheFile :=
  match ensureUniqueKindsGo [] ings with
  | some e => .error e
  | none => .ok ⟨1, rev, ings.map secOf⟩

/-- `find` in the `by_kind` lookup built by `load_cache`
(`persist.rs` lines 170-174; kind ids are unique when it is consulted). -/
def findIngr (ings : List Ingr) (kid : Nat) : Option Ingr :=
  ings.find? fun i => i.kindId = kid

/-- Commit an updated ingredient back into the list (the source mutates the
ingredient in place through its reference). -/
def replaceIngr (ings : List Ingr) (kid : Nat) (new : Ingr) : List Ingr :=
  ings.map fun i => if i.kindId = kid then new else i

/-- The per-section loop of `load_cache` (`persist.rs` lines 181-212):
unknown kind ids are skipped; a kind-name or section-type mismatch fails
`Cache`; otherwise `load_records` runs, its error aborting the loop with
the ingredient's partial state kept. -/
def loadSections (enc : Val → Key) :
    List Section → List Ingr → List Ingr × Option PicanteError
  | [], ings => (ings, none)
  | sec :: rest, ings =>
      match findIngr ings sec.kindId with
      | none => loadSections enc rest ings
      | some ing =>
          if sec.kindName ≠ ing.kindName then
            (ings, some (.Cache "kind name mismatch"))
          else if sec.sectionType ≠ ing.sectionType then
            (ings, some (.Cache "section type mismatch"))
          else
            match ing.loadRecords enc sec.records with
            | (ing', none) => loadSections enc rest (replaceIngr ings sec.kindId ing')
            | (ing', some e) => (replaceIngr ings sec.kindId ing', some e)

/-- The pure part of `load_cache` on a decoded cache file (`persist.rs`
lines 134-223): enforce unique kind ids, reject a format-version mismatch,
*then* clear all provided ingredients and ingest the sections, and set the
runtime revision only on success.  Returns the runtime revision, the final
ingredient states (partial states on failure, as the in-place mutation of
the source leaves them), and the error if any; `none` is the `Ok(true)`
outcome.  (Reading the file and the absent-file `Ok(false)` path are I/O,
outside this state-level embedding.) -/
def loadCache (enc : Val → Key) (cache : CacheFile) (rev : Nat)
    (ings : List Ingr) : Nat × List Ingr × Option PicanteError :=
  match ensureUniqueKindsGo [] ings with
  | some e => (rev, ings, some e)
  | none =>
      if cache.formatVersion ≠ 1 then
        (rev, ings, some (.Cache "unsupported cache format version"))
      else
        match loadSections enc cache.sections (ings.map Ingr.clear) with
        | (ings', none) => (cache.currentRevision, ings', none)
        | (ings', some e) => (rev, ings', some e)

theorem lookupA_append_single {κ β : Type} [DecidableEq κ]
    (l : List (κ × β)) (k k' : κ) (b : β) :
    lookupA (l ++ [(k', b)]) k =
      match lookupA l k with
      | some x => some x
      | none => if k' = k then some b else none := by
  induction l with
  | nil => simp [lookupA]
  | cons q rest ih =>
    by_cases hq : q.1 = k <;> simp [lookupA, hq, ih]

theorem lookupA_append_single_none {κ β : Type} [DecidableEq κ]
    {l : List (κ × β)} {k k' : κ} {b : β}
    (h : lookupA (l ++ [(k', b)]) k = none) :
    lookupA l k = none ∧ k' ≠ k := by
  rw [lookupA_append_single] at h
  rcases hl : lookupA l k with _ | x
  · rw [hl] at h
    by_cases hk : k' = k
    · simp [hk] at h
    · exact ⟨rfl, hk⟩
  · rw [hl] at h; simp at h

theorem lookupA_append_single_none_of {κ β : Type} [DecidableEq κ]
    {l : List (κ × β)} {k k' : κ} {b : β} (h : lookupA l k = none)
    (hk : k' ≠ k) : lookupA (l ++ [(k', b)]) k = none := by
  rw [lookupA_append_single, h]
  simp [hk]

theorem insertA_fresh {κ β : Type} [DecidableEq κ]
    {l : List (κ × β)} {k : κ} (b : β) (h : lookupA l k = none) :
    insertA l k b = l ++ [(k, b)] := by
  induction l with
  | nil => rfl
  | cons q rest ih =>
    by_cases hq : q.1 = k
    · simp [lookupA, hq] at h
    · simp [lookupA, hq] at h
      simp [insertA, hq, ih h]

theorem lookupA_insertA_self {κ β : Type} [DecidableEq κ]
    {l : List (κ × β)} {k : κ} (b : β) (h : lookupA l k = none) :
    lookupA (insertA l k b) k = some b := by
  rw [insertA_fresh b h, lookupA_append_single, h]
  simp

/-- The record-fold of the interned loader on duplicate-free records:
both maps are extended by exactly the records, in order, and the running
maximum folds over the ids. -/
theorem internedLoadGo_clean (enc : Val → Key) (rs : List (Nat × Val)) :
    ∀ (bv : List (Key × Nat)) (bi : List (Nat × Val)) (maxId : Nat),
    (rs.map Prod.fst).Nodup → (rs.map fun p => enc p.2).Nodup →
    (∀ p ∈ rs, lookupA bi p.1 = none) →
    (∀ p ∈ rs, lookupA bv (enc p.2) = none) →
    internedLoadGo enc bv bi maxId
        (rs.map fun p => .internedRec p.1 p.2) =
      ((bv ++ rs.map fun p => (enc p.2, p.1), bi ++ rs,
        rs.foldl (fun m p => max m p.1) maxId), none) := by
  induction rs with
  | nil => intro bv bi maxId _ _ _ _; simp [internedLoadGo]
  | cons p rs ih =>
    intro bv bi maxId hids hvals hbi hbv
    rw [List.map_cons, List.nodup_cons] at hids hvals
    have hbip : lookupA bi p.1 = none := hbi p (List.mem_cons_self p rs)
    have hbvp : lookupA bv (enc p.2) = none :=
      hbv p (List.mem_cons_self p rs)
    have hrec := ih (insertA bv (enc p.2) p.1) (insertA bi p.1 p.2)
      (max maxId p.1) hids.2 hvals.2
      (by
        intro q hq
        rw [insertA_fresh p.2 hbip]
        refine lookupA_append_single_none_of
          (hbi q (List.mem_cons_of_mem p hq)) ?_
        intro hqq
        exact hids.1 (hqq ▸ List.mem_map_of_mem Prod.fst hq))
      (by
        intro q hq
        rw [insertA_fresh p.1 hbvp]
        refine lookupA_append_single_none_of
          (hbv q (List.mem_cons_of_mem p hq)) ?_
        intro hqq
        exact hvals.1 (hqq ▸ List.mem_map_of_mem (fun r => enc r.2) hq))
    simp only [List.map_cons, internedLoadGo, hbip, hbvp,
      Option.isSome_none, Bool.false_eq_true, if_false]
    rw [hrec, insertA_fresh p.1 hbvp, insertA_fresh p.2 hbip]
    simp

/-- The record-fold of the interned loader fails with a `Cache` error
whenever the records are not cleanly insertable — a duplicate id, a
duplicate encoded value, or a collision with the accumulated maps. -/
theorem internedLoadGo_dup (enc : Val → Key) (rs : List (Nat × Val)) :
    ∀ (bv : List (Key × Nat)) (bi : List (Nat × Val)) (maxId : Nat),
    ¬ ((rs.map Prod.fst).Nodup ∧ (rs.map fun p => enc p.2).Nodup ∧
      (∀ p ∈ rs, lookupA bi p.1 = none) ∧
      (∀ p ∈ rs, lookupA bv (enc p.2) = none)) →
    ∃ msg, (internedLoadGo enc bv bi maxId
      (rs.map fun p => .internedRec p.1 p.2)).2 = some (.Cache msg) := by
  induction rs with
  | nil =>
    intro bv bi maxId h
    exact absurd ⟨List.nodup_nil, List.nodup_nil, by simp, by simp⟩ h
  | cons p rs ih =>
    intro bv bi maxId h
    rcases hbip : lookupA bi p.1 with _ | x
    · rcases hbvp : lookupA bv (enc p.2) with _ | y
      · refine ih (insertA bv (enc p.2) p.1) (insertA bi p.1 p.2)
          (max maxId p.1) ?_ |>.imp ?_
        · intro ⟨hids, hvals, hbi, hbv⟩
          refine h ⟨?_, ?_, ?_, ?_⟩
          · rw [List.map_cons, List.nodup_cons]
            refine ⟨fun hmem => ?_, hids⟩
            obtain ⟨q, hq, hqe⟩ := List.mem_map.mp hmem
            have := hbi q hq
            rw [insertA_fresh p.2 hbip] at this
            exact (lookupA_append_single_none this).2 hqe.symm
          · rw [List.map_cons, List.nodup_cons]
            refine ⟨fun hmem => ?_, hvals⟩
            obtain ⟨q, hq, hqe⟩ := List.mem_map.mp hmem
            have := hbv q hq
            rw [insertA_fresh p.1 hbvp] at this
            exact (lookupA_append_single_none this).2 hqe.symm
          · intro q hq
            rcases List.mem_cons.mp hq with hq | hq
            · rw [hq]; exact hbip
            · have := hbi q hq
              rw [insertA_fresh p.2 hbip] at this
              exact (lookupA_append_single_none this).1
          · intro q hq
            rcases List.mem_cons.mp hq with hq | hq
            · rw [hq]; exact hbvp
            · have := hbv q hq
              rw [insertA_fresh p.1 hbvp] at this
              exact (lookupA_append_single_none this).1
        · intro msg hmsg
          simpa [internedLoadGo, hbip, hbvp] using hmsg
      · refine ⟨"duplicate interned value", ?_⟩
        simp [internedLoadGo, hbip, hbvp]
    · refine ⟨"duplicate interned id", ?_⟩
      simp [internedLoadGo, hbip]

/-- C9 (amended: interned `load_records`).  For well-shaped `(id, value)`
records: (1) when the ids and the encoded values are duplicate-free, the
load succeeds and rebuilds both maps from exactly the records —
`by_value = [(enc v, id)]`, `by_id = [(id, v)]` in record order — and sets
the next-id counter to `max_id + 1` saturated at `u32::MAX`, where
`max_id` is the fold of `max` over the ids *starting from 0*; in
particular an empty record list leaves the counter at `0 + 1 = 1`, not at
the fresh ingredient's 0 (the corrected part of the claim).  (2) Any
duplicate id or duplicate encoded value makes the load fail with a `Cache`
error. -/
theorem interned_load_records_amended (enc : Val → Key) (kid : Nat)
    (kn : String) (bv0 : List (Key × Nat)) (bi0 : List (Nat × Val))
    (n0 : Nat) (rs : List (Nat × Val)) :
    ((rs.map Prod.fst).Nodup → (rs.map fun p => enc p.2).Nodup →
      Ingr.loadRecords enc (.interned kid kn bv0 bi0 n0)
          (rs.map fun p => .internedRec p.1 p.2) =
        (.interned kid kn (rs.map fun p => (enc p.2, p.1)) rs
          (min (rs.foldl (fun m p => max m p.1) 0 + 1) u32Max), none)) ∧
    (¬ (rs.map Prod.fst).Nodup ∨ ¬ (rs.map fun p => enc p.2).Nodup →
      ∃ msg, (Ingr.loadRecords enc (.interned kid kn bv0 bi0 n0)
        (rs.map fun p => .internedRec p.1 p.2)).2 =
          some (.Cache msg)) := by
  constructor
  · intro hids hvals
    have h := internedLoadGo_clean enc rs [] [] 0 hids hvals
      (by intro q _; rfl) (by intro q _; rfl)
    simp only [Ingr.loadRecords, h, List.nil_append]
  · intro hdup
    have h := internedLoadGo_dup enc rs [] [] 0 (by
      intro ⟨h1, h2, _, _⟩
      rcases hdup with hd | hd <;> [exact hd h1; exact hd h2])
    obtain ⟨msg, hmsg⟩ := h
    refine ⟨msg, ?_⟩
    simp only [Ingr.loadRecords]
    rcases hgo : internedLoadGo enc [] [] 0
        (rs.map fun p => .internedRec p.1 p.2) with ⟨⟨bv, bi, maxId⟩, err⟩
    rw [hgo] at hmsg
    have herr : err = some (.Cache msg) := hmsg
    rw [hgo, herr]

/-- Counterexample for C9 as stated: loading an *empty* record list leaves
the next-id counter at 1 (`max_id` is initialised to 0 and the source
stores `max_id.saturating_add(1)`), whereas the claim says an empty load
matches a fresh ingredient's counter 0. -/
theorem interned_load_empty_counter_counterexample :
    Ingr.loadRecords id (.interned 1 "names" [] [] 0) [] =
      (.interned 1 "names" [] [] 1, none) ∧ (1 : Nat) ≠ 0 := by
  constructor
  · rfl
  · decide

/-- Witness for C9's amended theorem: two duplicate-free records rebuild
both maps with counter `max(0, 5, 9) + 1 = 10`; a duplicated id fails with
a `Cache` error. -/
theorem interned_load_records_amended_witness :
    Ingr.loadRecords id (.interned 1 "names" [] [] 0)
        [.internedRec 5 [10], .internedRec 9 [11]] =
      (.interned 1 "names" [([10], 5), ([11], 9)] [(5, [10]), (9, [11])]
        10, none) ∧
    (∃ msg, (Ingr.loadRecords id (.interned 1 "names" [] [] 0)
      [.internedRec 5 [10], .internedRec 5 [11]]).2 =
        some (.Cache msg)) := by
  constructor
  · have h := (interned_load_records_amended id 1 "names" [] [] 0
      [(5, [10]), (9, [11])]).1 (by decide) (by decide)
    simpa [u32Max] using h
  · exact (interned_load_records_amended id 1 "names" [] [] 0
      [(5, [10]), (5, [11])]).2 (Or.inl (by decide))

theorem insertById_perm (p : Nat × Val) (l : List (Nat × Val)) :
    (insertById p l).Perm (p :: l) := by
  induction l with
  | nil => exact List.Perm.refl _
  | cons q rest ih =>
    by_cases h : p.1 ≤ q.1
    · simp [insertById, h]
    · simp only [insertById, h, ite_false]
      exact (ih.cons q).trans (List.Perm.swap p q rest)

theorem sortById_perm (l : List (Nat × Val)) : (sortById l).Perm l := by
  induction l with
  | nil => exact List.Perm.refl _
  | cons p rest ih => exact (insertById_perm p (sortById rest)).trans (ih.cons p)

theorem foldr_max_perm {l₁ l₂ : List Nat} (h : l₁.Perm l₂) (a : Nat) :
    l₁.foldr max a = l₂.foldr max a := by
  induction h with
  | nil => rfl
  | cons x _ ih => simp [List.foldr_cons, ih]
  | swap x y l => simp only [List.foldr_cons]; omega
  | trans _ _ ih₁ ih₂ => exact ih₁.trans ih₂

theorem foldl_max_eq_foldr (l : List Nat) (a : Nat) :
    l.foldl max a = max a (l.foldr max 0) := by
  induction l generalizing a with
  | nil => simp
  | cons x rest ih => simp only [List.foldl_cons, List.foldr_cons, ih]; omega

theorem foldl_max_perm {l₁ l₂ : List Nat} (h : l₁.Perm l₂) (a : Nat) :
    l₁.foldl max a = l₂.foldl max a := by
  rw [foldl_max_eq_foldr, foldl_max_eq_foldr, foldr_max_perm h]

/-- The record-fold of the input loader on duplicate-free entries: the map
is extended by exactly the entries, in order. -/
theorem inputLoadGo_clean (entries : List (Key × Val × Nat)) :
    ∀ acc : List (Key × Val × Nat),
    (entries.map Prod.fst).Nodup →
    (∀ e ∈ entries, lookupA acc e.1 = none) →
    inputLoadGo acc (entries.map fun e => .inputRec e.1 e.2.1 e.2.2) =
      (acc ++ entries, none) := by
  induction entries with
  | nil => intro acc _ _; simp [inputLoadGo]
  | cons e rest ih =>
    intro acc hnodup hfresh
    rw [List.map_cons, List.nodup_cons] at hnodup
    have hacc : lookupA acc e.1 = none := hfresh e (List.mem_cons_self e rest)
    have hrec := ih (insertA acc e.1 (e.2.1, e.2.2)) hnodup.2 (by
      intro q hq
      rw [insertA_fresh _ hacc]
      refine lookupA_append_single_none_of
        (hfresh q (List.mem_cons_of_mem e hq)) ?_
      intro hqq
      exact hnodup.1 (hqq ▸ List.mem_map_of_mem Prod.fst hq))
    simp only [List.map_cons, inputLoadGo]
    rw [insertA_fresh _ hacc] at hrec ⊢
    rw [hrec]
    simp

/-- The record-fold of the derived loader on duplicate-free `Ready` cells:
the cells map is extended by exactly the saved cells, in order. -/
theorem derivedLoadGo_clean (cells : List (Key × Protocol.State Val)) :
    ∀ acc : List (Key × Protocol.State Val),
    (cells.map Prod.fst).Nodup →
    (∀ c ∈ cells, ∃ v verifiedAt deps, c.2 = .ready v verifiedAt deps) →
    (∀ c ∈ cells, lookupA acc c.1 = none) →
    derivedLoadGo acc
        (cells.filterMap fun c =>
          match c.2 with
          | .ready v verifiedAt deps =>
              some (.derivedRec c.1 v verifiedAt deps)
          | _ => none) =
      (acc ++ cells, none) := by
  induction cells with
  | nil => intro acc _ _ _; simp [derivedLoadGo]
  | cons c rest ih =>
    intro acc hnodup hready hfresh
    rw [List.map_cons, List.nodup_cons] at hnodup
    obtain ⟨v, verifiedAt, deps, hc⟩ := hready c (List.mem_cons_self c rest)
    have hacc : lookupA acc c.1 = none := hfresh c (List.mem_cons_self c rest)
    have hrec := ih (insertA acc c.1 (.ready v verifiedAt deps)) hnodup.2
      (fun q hq => hready q (List.mem_cons_of_mem c hq)) (by
        intro q hq
        rw [insertA_fresh _ hacc]
        refine lookupA_append_single_none_of
          (hfresh q (List.mem_cons_of_mem c hq)) ?_
        intro hqq
        exact hnodup.1 (hqq ▸ List.mem_map_of_mem Prod.fst hq))
    simp only [List.filterMap_cons, hc, derivedLoadGo]
    rw [insertA_fresh _ hacc] at hrec ⊢
    rw [hrec, ← hc]
    simp

theorem Ingr.clear_kindId (i : Ingr) : i.clear.kindId = i.kindId := by
  cases i <;> rfl

theorem Ingr.clear_kindName (i : Ingr) : i.clear.kindName = i.kindName := by
  cases i <;> rfl

theorem Ingr.clear_sectionType (i : Ingr) :
    i.clear.sectionType = i.sectionType := by
  cases i <;> rfl

theorem Ingr.clear_clear (i : Ingr) : i.clear.clear = i.clear := by
  cases i <;> rfl

/-- Well-formedness of an in-memory ingredient state, as produced by the
ingredient operations: map keys are distinct; a derived state offered for a
round trip holds only `Ready` cells; the interned `by_value` map is the
encoded mirror of `by_id` and the stored encодings are distinct. -/
def IngrWF (enc : Val → Key) : Ingr → Prop
  | .input _ _ entries => (entries.map Prod.fst).Nodup
  | .derived _ _ cells => (cells.map Prod.fst).Nodup ∧
      ∀ c ∈ cells, ∃ v verifiedAt deps,
        c.2 = Protocol.State.ready v verifiedAt deps
  | .interned _ _ byValue byId _ => (byId.map Prod.fst).Nodup ∧
      (byId.map fun p => enc p.2).Nodup ∧
      byValue = byId.map fun p => (enc p.2, p.1)

/-- The state `load_records` rebuilds from a saved snapshot of a
well-formed state: inputs and derived cells are restored exactly; the
interned maps are restored in id-sorted order with the counter at
`max_id + 1` (`u32`-saturated, `max_id` folded from 0). -/
def restoredIngr (enc : Val → Key) : Ingr → Ingr
  | .input k n entries => .input k n entries
  | .derived k n cells => .derived k n cells
  | .interned k n _ byId _ =>
      .interned k n ((sortById byId).map fun p => (enc p.2, p.1))
        (sortById byId)
        (min ((byId.map Prod.fst).foldl max 0 + 1) u32Max)

theorem restoredIngr_kindId (enc : Val → Key) (i : Ingr) :
    (restoredIngr enc i).kindId = i.kindId := by
  cases i <;> rfl

/-- One ingredient's round trip: loading its own saved records into its
cleared self restores it (exactly, or id-sorted for interned). -/
theorem ingr_roundtrip (enc : Val → Key) (i : Ingr) (hwf : IngrWF enc i) :
    Ingr.loadRecords enc i.clear i.saveRecords =
      (restoredIngr enc i, none) := by
  cases i with
  | input k n entries =>
    have h := inputLoadGo_clean entries [] hwf (by intro e _; rfl)
    simp only [Ingr.clear, Ingr.saveRecords, Ingr.loadRecords, h,
      List.nil_append, restoredIngr]
  | derived k n cells =>
    have h := derivedLoadGo_clean cells [] hwf.1 hwf.2 (by intro c _; rfl)
    simp only [Ingr.clear, Ingr.saveRecords, Ingr.loadRecords, h,
      List.nil_append, restoredIngr]
  | interned k n byValue byId nextId =>
    obtain ⟨hids, hvals, hbv⟩ := hwf
    have hperm : (sortById byId).Perm byId := sortById_perm byId
    have hids' : ((sortById byId).map Prod.fst).Nodup :=
      ((hperm.map Prod.fst).nodup_iff).mpr hids
    have hvals' : ((sortById byId).map fun p => enc p.2).Nodup :=
      ((hperm.map fun p => enc p.2).nodup_iff).mpr hvals
    have h := internedLoadGo_clean enc (sortById byId) [] [] 0 hids' hvals'
      (by intro q _; rfl) (by intro q _; rfl)
    have hfold : (sortById byId).foldl (fun m p => max m p.1) 0 =
        (byId.map Prod.fst).foldl max 0 := by
      rw [← List.foldl_map, foldl_max_perm (hperm.map Prod.fst)]
    simp only [Ingr.clear, Ingr.saveRecords, Ingr.loadRecords, h,
      List.nil_append, restoredIngr, hfold]

theorem ensureUniqueKindsGo_of_nodup (ings : List Ingr) :
    ∀ seen, (∀ i ∈ ings, i.kindId ∉ seen) →
    (ings.map Ingr.kindId).Nodup → ensureUniqueKindsGo seen ings = none := by
  induction ings with
  | nil => intro seen _ _; rfl
  | cons i rest ih =>
    intro seen hseen hnodup
    rw [List.map_cons, List.nodup_cons] at hnodup
    have hi : ¬ seen.contains i.kindId := by
      simp only [List.contains_iff_exists_mem_beq]
      rintro ⟨a, ha, hbeq⟩
      exact hseen i (List.mem_cons_self i rest)
        (by rwa [show i.kindId = a from by simpa using hbeq])
    simp only [ensureUniqueKindsGo, hi, Bool.false_eq_true, if_false]
    refine ih (i.kindId :: seen) ?_ hnodup.2
    intro j hj hmem
    rcases List.mem_cons.mp hmem with hmem | hmem
    · exact hnodup.1 (hmem ▸ List.mem_map_of_mem Ingr.kindId hj)
    · exact hseen j (List.mem_cons_of_mem i hj) hmem

theorem replaceIngr_not_mem (ings : List Ingr) (kid : Nat) (new : Ingr)
    (h : ∀ j ∈ ings, j.kindId ≠ kid) : replaceIngr ings kid new = ings := by
  induction ings with
  | nil => rfl
  | cons i rest ih =>
    simp only [replaceIngr, List.map_cons]
    rw [if_neg (h i (List.mem_cons_self i rest))]
    have := ih fun j hj => h j (List.mem_cons_of_mem i hj)
    simp only [replaceIngr] at this
    rw [this]

/-- Sections whose kind ids all differ from the head ingredient pass over
it untouched. -/
theorem loadSections_skip_head (enc : Val → Key) (secs : List Section) :
    ∀ (x : Ingr) (curr : List Ingr),
    (∀ sec ∈ secs, sec.kindId ≠ x.kindId) →
    loadSections enc secs (x :: curr) =
      ((loadSections enc secs curr).1.cons x,
        (loadSections enc secs curr).2) := by
  induction secs with
  | nil => intro x curr _; rfl
  | cons sec rest ih =>
    intro x curr hne
    have hx : ¬ x.kindId = sec.kindId := by
      intro hh
      exact hne sec (List.mem_cons_self sec rest) hh.symm
    have hfind : findIngr (x :: curr) sec.kindId = findIngr curr sec.kindId := by
      simp [findIngr, List.find?, hx]
    simp only [loadSections, hfind]
    rcases hf : findIngr curr sec.kindId with _ | ing
    · exact ih x curr fun s hs => hne s (List.mem_cons_of_mem sec hs)
    · by_cases hname : sec.kindName ≠ ing.kindName
      · simp [hname]
      · by_cases htype : sec.sectionType ≠ ing.sectionType
        · simp [hname, htype]
        · simp only [hname, htype, ite_false, if_false]
          rcases hload : ing.loadRecords enc sec.records with ⟨ing', err⟩
          have hrepl : replaceIngr (x :: curr) sec.kindId ing' =
              x :: replaceIngr curr sec.kindId ing' := by
            simp only [replaceIngr, List.map_cons]
            rw [if_neg hx]
          rcases err with _ | e
          · dsimp only
            rw [hrepl]
            exact ih x _ fun s hs => hne s (List.mem_cons_of_mem sec hs)
          · dsimp only
            rw [hrepl]

/-- Loading the sections saved from a well-formed ingredient set into the
cleared set restores every ingredient, with no error. -/
theorem loadSections_roundtrip (enc : Val → Key) :
    ∀ ings : List Ingr, (ings.map Ingr.kindId).Nodup →
    (∀ i ∈ ings, IngrWF enc i) →
    loadSections enc (ings.map secOf) (ings.map Ingr.clear) =
      (ings.map (restoredIngr enc), none) := by
  intro ings
  induction ings with
  | nil => intro _ _; rfl
  | cons i rest ih =>
    intro hnodup hwf
    rw [List.map_cons, List.nodup_cons] at hnodup
    have hfind : findIngr (i.clear :: rest.map Ingr.clear) (secOf i).kindId =
        some i.clear := by
      simp [findIngr, List.find?, secOf, Ingr.clear_kindId]
    have hname : ¬ (secOf i).kindName ≠ i.clear.kindName := by
      simp [secOf, Ingr.clear_kindName]
    have htype : ¬ (secOf i).sectionType ≠ i.clear.sectionType := by
      simp [secOf, Ingr.clear_sectionType]
    have hload : Ingr.loadRecords enc i.clear (secOf i).records =
        (restoredIngr enc i, none) :=
      ingr_roundtrip enc i (hwf i (List.mem_cons_self i rest))
    have hrepl : replaceIngr (i.clear :: rest.map Ingr.clear) (secOf i).kindId
        (restoredIngr enc i) =
        restoredIngr enc i :: rest.map Ingr.clear := by
      simp only [replaceIngr, List.map_cons, secOf]
      rw [if_pos (Ingr.clear_kindId i)]
      have : ∀ j ∈ rest.map Ingr.clear, j.kindId ≠ i.kindId := by
        intro j hj
        obtain ⟨j₀, hj₀, rfl⟩ := List.mem_map.mp hj
        rw [Ingr.clear_kindId]
        intro hh
        exact hnodup.1 (hh ▸ List.mem_map_of_mem Ingr.kindId hj₀)
      have hr := replaceIngr_not_mem (rest.map Ingr.clear) i.kindId
        (restoredIngr enc i) this
      simp only [replaceIngr] at hr
      rw [hr]
    have hskip := loadSections_skip_head enc (rest.map secOf)
      (restoredIngr enc i) (rest.map Ingr.clear) (by
        intro sec hsec
        obtain ⟨j, hj, rfl⟩ := List.mem_map.mp hsec
        simp only [secOf, restoredIngr_kindId]
        intro hh
        exact hnodup.1 (hh ▸ List.mem_map_of_mem Ingr.kindId hj))
    have hrest := ih hnodup.2 fun j hj => hwf j (List.mem_cons_of_mem i hj)
    simp only [List.map_cons, loadSections, hfind, hname, htype, ite_false,
      if_false, hload, hrepl, hskip, hrest]

/-- `List.Forall₂` against a pointwise image. -/
theorem forall₂_map_self {α β : Type} (f : α → β) (R : α → β → Prop)
    (l : List α) (h : ∀ a ∈ l, R a (f a)) : List.Forall₂ R l (l.map f) := by
  induction l with
  | nil => exact List.Forall₂.nil
  | cons a rest ih =>
    exact List.Forall₂.cons (h a (List.mem_cons_self a rest))
      (ih fun b hb => h b (List.mem_cons_of_mem a hb))

/-- How a loaded ingredient relates to the one it was saved from: inputs
and derived cells are restored exactly; interned maps are restored up to
map ordering (a permutation), with the next-id counter at `max_id + 1`
(`u32`-saturated, `max_id` folded from 0 over the stored ids). -/
def Restores (enc : Val → Key) : Ingr → Ingr → Prop :=
  fun orig fin =>
    match orig, fin with
    | .input k n e, .input k' n' e' => k' = k ∧ n' = n ∧ e' = e
    | .derived k n c, .derived k' n' c' => k' = k ∧ n' = n ∧ c' = c
    | .interned k n bv bi _, .interned k' n' bv' bi' nid' =>
        k' = k ∧ n' = n ∧ bv'.Perm bv ∧ bi'.Perm bi ∧
        nid' = min ((bi.map Prod.fst).foldl max 0 + 1) u32Max
    | _, _ => False

theorem restores_restoredIngr (enc : Val → Key) (i : Ingr)
    (hwf : IngrWF enc i) : Restores enc i (restoredIngr enc i) := by
  cases i with
  | input k n e => exact ⟨rfl, rfl, rfl⟩
  | derived k n c => exact ⟨rfl, rfl, rfl⟩
  | interned k n bv bi nid =>
    obtain ⟨_, _, hbv⟩ := hwf
    exact ⟨rfl, rfl, hbv ▸ (sortById_perm bi).map fun p => (enc p.2, p.1),
      sortById_perm bi, rfl⟩

/-- C3 (amended: persistence round-trip).  For a well-formed ingredient set
with unique kind ids, `save_cache` at revision `rev` followed by
`load_cache` into the fresh (cleared) set with the same kind ids succeeds
(the `Ok(true)` outcome), sets the runtime revision to `rev`, and restores
every ingredient: input entries and Ready derived cells exactly, interned
`by_value`/`by_id` up to map ordering, with the interned next-id counter at
`max_id + 1` (`max_id` folded from 0 over the stored ids, `u32`-saturated).
For an interned ingredient with at least one densely allocated pair this
equals its original counter; for an *empty* interned ingredient it is 1
while a fresh ingredient's counter is 0, so the restored state is not
always equal to the saved one as the original claim asserts (see the
counterexample). -/
theorem save_load_roundtrip (enc : Val → Key) (rev r0 : Nat)
    (ings : List Ingr) (hkinds : (ings.map Ingr.kindId).Nodup)
    (hwf : ∀ i ∈ ings, IngrWF enc i) :
    ∃ file : CacheFile, saveCacheFile rev ings = .ok file ∧
      loadCache enc file r0 (ings.map Ingr.clear) =
        (rev, ings.map (restoredIngr enc), none) ∧
      List.Forall₂ (Restores enc) ings (ings.map (restoredIngr enc)) := by
  refine ⟨⟨1, rev, ings.map secOf⟩, ?_, ?_, ?_⟩
  · simp only [saveCacheFile,
      ensureUniqueKindsGo_of_nodup ings [] (by simp) hkinds]
  · have hkinds' : ((ings.map Ingr.clear).map Ingr.kindId).Nodup := by
      rw [List.map_map]
      have : ings.map (Ingr.kindId ∘ Ingr.clear) = ings.map Ingr.kindId := by
        simp [Ingr.clear_kindId]
      rw [this]; exact hkinds
    have hclear2 : (ings.map Ingr.clear).map Ingr.clear =
        ings.map Ingr.clear := by
      rw [List.map_map]
      simp [Ingr.clear_clear]
    simp only [loadCache,
      ensureUniqueKindsGo_of_nodup (ings.map Ingr.clear) [] (by simp)
        hkinds', hclear2]
    simp only [loadSections_roundtrip enc ings hkinds hwf]
    rfl
  · exact forall₂_map_self (restoredIngr enc) (Restores enc) ings
      fun i hi => restores_restoredIngr enc i (hwf i hi)

/-- Counterexample for C3 as stated: an ingredient set holding one *empty*
interned ingredient.  Save-then-load succeeds and sets the revision, but
the restored ingredient has next-id counter 1 (`0.max_id.saturating_add(1)`
with no records) while the saved state had 0 — the restored state is not
equal to S. -/
theorem save_load_empty_interned_counterexample :
    saveCacheFile 5 [Ingr.interned 1 "names" [] [] 0] =
      .ok ⟨1, 5, [⟨1, "names", .Interned, []⟩]⟩ ∧
    loadCache id ⟨1, 5, [⟨1, "names", .Interned, []⟩]⟩ 0
        ([Ingr.interned 1 "names" [] [] 0].map Ingr.clear) =
      (5, [Ingr.interned 1 "names" [] [] 1], none) ∧
    Ingr.interned 1 "names" [] [] 1 ≠ Ingr.interned 1 "names" [] [] 0 := by
  refine ⟨rfl, rfl, ?_⟩
  decide

/-- Witness for C3's amended theorem: a three-ingredient set (one input
entry, one Ready derived cell, one interned pair) with unique kind ids. -/
theorem save_load_roundtrip_witness :
    ∃ file : CacheFile,
      saveCacheFile 7 [Ingr.input 1 "in" [([1], [2], 1)],
        Ingr.derived 2 "d" [([3], .ready [4] 1 [(1, [1])])],
        Ingr.interned 3 "it" [([5], 0)] [(0, [5])] 1] = .ok file ∧
      loadCache id file 0
          ([Ingr.input 1 "in" [([1], [2], 1)],
            Ingr.derived 2 "d" [([3], .ready [4] 1 [(1, [1])])],
            Ingr.interned 3 "it" [([5], 0)] [(0, [5])] 1].map Ingr.clear) =
        (7, [Ingr.input 1 "in" [([1], [2], 1)],
          Ingr.derived 2 "d" [([3], .ready [4] 1 [(1, [1])])],
          Ingr.interned 3 "it" [([5], 0)] [(0, [5])] 1].map
            (restoredIngr id), none) ∧
      List.Forall₂ (Restores id)
        [Ingr.input 1 "in" [([1], [2], 1)],
          Ingr.derived 2 "d" [([3], .ready [4] 1 [(1, [1])])],
          Ingr.interned 3 "it" [([5], 0)] [(0, [5])] 1]
        ([Ingr.input 1 "in" [([1], [2], 1)],
          Ingr.derived 2 "d" [([3], .ready [4] 1 [(1, [1])])],
          Ingr.interned 3 "it" [([5], 0)] [(0, [5])] 1].map
            (restoredIngr id)) :=
  save_load_roundtrip id 7 0 _ (by decide) (by
    intro i hi
    simp only [List.mem_cons, List.not_mem_nil, or_false] at hi
    rcases hi with rfl | rfl | rfl
    · simp only [IngrWF]; decide
    · exact ⟨by decide, by
        rintro c hc
        rw [List.mem_singleton] at hc
        exact ⟨[4], 1, [(1, [1])], by rw [hc]⟩⟩
    · exact ⟨by decide, by decide, by decide⟩)

/-- All records of a cache file, across its sections. -/
def allRecs (cache : CacheFile) : List Rec :=
  (cache.sections.map Section.records).flatten

/-- An ingredient state whose every datum comes from the record set `recs`
(no pre-existing in-memory content): each input entry, each derived cell
(necessarily `Ready`), and each interned pair is the image of a record. -/
def FromRecords (enc : Val → Key) (recs : List Rec) : Ingr → Prop
  | .input _ _ entries =>
      ∀ e ∈ entries, Rec.inputRec e.1 e.2.1 e.2.2 ∈ recs
  | .derived _ _ cells =>
      ∀ c ∈ cells, ∃ v verifiedAt deps,
        c.2 = Protocol.State.ready v verifiedAt deps ∧
        Rec.derivedRec c.1 v verifiedAt deps ∈ recs
  | .interned _ _ byValue byId _ =>
      (∀ p ∈ byId, Rec.internedRec p.1 p.2 ∈ recs) ∧
      (∀ q ∈ byValue, ∃ v, q.1 = enc v ∧ Rec.internedRec q.2 v ∈ recs)

theorem fromRecords_clear (enc : Val → Key) (recs : List Rec) (i : Ingr) :
    FromRecords enc recs i.clear := by
  cases i <;> simp [FromRecords, Ingr.clear]

theorem mem_insertA {κ β : Type} [DecidableEq κ] {l : List (κ × β)}
    {k : κ} {b : β} {x : κ × β} (h : x ∈ insertA l k b) :
    x ∈ l ∨ x = (k, b) := by
  induction l with
  | nil => simp [insertA] at h; exact Or.inr h
  | cons q rest ih =>
    by_cases hq : q.1 = k
    · simp only [insertA, hq, if_pos rfl] at h
      rcases List.mem_cons.mp h with h | h
      · exact Or.inr h
      · exact Or.inl (List.mem_cons_of_mem q h)
    · simp only [insertA, hq, if_false] at h
      rcases List.mem_cons.mp h with h | h
      · exact Or.inl (h ▸ List.mem_cons_self q rest)
      · rcases ih h with h | h
        · exact Or.inl (List.mem_cons_of_mem q h)
        · exact Or.inr h

theorem inputLoadGo_from {recs : List Rec} (rs : List Rec) :
    ∀ entries, (∀ e ∈ entries, Rec.inputRec e.1 e.2.1 e.2.2 ∈ recs) →
    rs ⊆ recs →
    ∀ e ∈ (inputLoadGo entries rs).1, Rec.inputRec e.1 e.2.1 e.2.2 ∈ recs := by
  induction rs with
  | nil => intro entries hP _; exact hP
  | cons r rest ih =>
    intro entries hP hsub
    cases r with
    | inputRec k v c =>
      refine ih (insertA entries k (v, c)) ?_
        (fun x hx => hsub (List.mem_cons_of_mem _ hx))
      intro e he
      rcases mem_insertA he with he | he
      · exact hP e he
      · rw [he]; exact hsub (List.mem_cons_self _ _)
    | derivedRec k v vAt deps => exact hP
    | internedRec id v => exact hP

theorem derivedLoadGo_from {recs : List Rec} (rs : List Rec) :
    ∀ cells, (∀ c ∈ cells, ∃ v verifiedAt deps,
      c.2 = Protocol.State.ready v verifiedAt deps ∧
      Rec.derivedRec c.1 v verifiedAt deps ∈ recs) →
    rs ⊆ recs →
    ∀ c ∈ (derivedLoadGo cells rs).1, ∃ v verifiedAt deps,
      c.2 = Protocol.State.ready v verifiedAt deps ∧
      Rec.derivedRec c.1 v verifiedAt deps ∈ recs := by
  induction rs with
  | nil => intro cells hP _; exact hP
  | cons r rest ih =>
    intro cells hP hsub
    cases r with
    | derivedRec k v vAt deps =>
      refine ih (insertA cells k (.ready v vAt deps)) ?_
        (fun x hx => hsub (List.mem_cons_of_mem _ hx))
      intro c hc
      rcases mem_insertA hc with hc | hc
      · exact hP c hc
      · exact ⟨v, vAt, deps, by rw [hc], by
          rw [hc]; exact hsub (List.mem_cons_self _ _)⟩
    | inputRec k v c => exact hP
    | internedRec id v => exact hP

theorem internedLoadGo_from (enc : Val → Key) (recs : List Rec)
    (rs : List Rec) :
    ∀ bv bi maxId,
    (∀ p ∈ bi, Rec.internedRec p.1 p.2 ∈ recs) →
    (∀ q ∈ bv, ∃ v, q.1 = enc v ∧ Rec.internedRec q.2 v ∈ recs) →
    rs ⊆ recs →
    (∀ p ∈ (internedLoadGo enc bv bi maxId rs).1.2.1,
      Rec.internedRec p.1 p.2 ∈ recs) ∧
    (∀ q ∈ (internedLoadGo enc bv bi maxId rs).1.1,
      ∃ v, q.1 = enc v ∧ Rec.internedRec q.2 v ∈ recs) := by
  induction rs with
  | nil => intro bv bi maxId hbi hbv _; exact ⟨hbi, hbv⟩
  | cons r rest ih =>
    intro bv bi maxId hbi hbv hsub
    cases r with
    | internedRec id v =>
      have hrmem : Rec.internedRec id v ∈ recs :=
        hsub (List.mem_cons_self _ _)
      have hbv' : ∀ q ∈ insertA bv (enc v) id,
          ∃ w, q.1 = enc w ∧ Rec.internedRec q.2 w ∈ recs := by
        intro q hq
        rcases mem_insertA hq with hq | hq
        · exact hbv q hq
        · exact ⟨v, by rw [hq], by rw [hq]; exact hrmem⟩
      by_cases hdupId : (lookupA bi id).isSome
      · simp only [internedLoadGo, hdupId, if_pos rfl]
        exact ⟨hbi, hbv⟩
      · rcases hdupV : (lookupA bv (enc v)).isSome with _ | _
        · simp only [internedLoadGo, hdupId, if_false, hdupV]
          refine ih (insertA bv (enc v) id) (insertA bi id v) (max maxId id)
            ?_ hbv' (fun x hx => hsub (List.mem_cons_of_mem _ hx))
          intro p hp
          rcases mem_insertA hp with hp | hp
          · exact hbi p hp
          · rw [hp]; exact hrmem
        · simp only [internedLoadGo, hdupId, if_false, hdupV]
          exact ⟨hbi, hbv'⟩
    | inputRec k v c =>
      simp only [internedLoadGo]
      exact ⟨hbi, hbv⟩
    | derivedRec k v vAt deps =>
      simp only [internedLoadGo]
      exact ⟨hbi, hbv⟩

theorem loadRecords_from {enc : Val → Key} {recs : List Rec} {i : Ingr}
    (rs : List Rec) (hP : FromRecords enc recs i) (hsub : rs ⊆ recs) :
    FromRecords enc recs (Ingr.loadRecords enc i rs).1 := by
  cases i with
  | input k n entries =>
    simp only [Ingr.loadRecords, FromRecords]
    exact inputLoadGo_from rs entries hP hsub
  | derived k n cells =>
    simp only [Ingr.loadRecords, FromRecords]
    exact derivedLoadGo_from rs cells hP hsub
  | interned k n bv bi nid =>
    have h := internedLoadGo_from enc recs rs [] [] 0
      (by simp) (by simp) hsub
    simp only [Ingr.loadRecords]
    rcases hgo : internedLoadGo enc [] [] 0 rs with ⟨⟨bv', bi', maxId'⟩, err⟩
    rw [hgo] at h
    rcases err with _ | e
    · exact ⟨h.1, h.2⟩
    · exact ⟨h.1, h.2⟩

theorem mem_replaceIngr {l : List Ingr} {kid : Nat} {new x : Ingr}
    (h : x ∈ replaceIngr l kid new) : x ∈ l ∨ x = new := by
  obtain ⟨a, ha, hx⟩ := List.mem_map.mp h
  by_cases hk : a.kindId = kid
  · rw [if_pos hk] at hx; exact Or.inr hx.symm
  · rw [if_neg hk] at hx; exact Or.inl (hx ▸ ha)

theorem loadSections_from {enc : Val → Key} {recs : List Rec}
    (secs : List Section) :
    ∀ ings, (∀ sec ∈ secs, sec.records ⊆ recs) →
    (∀ i ∈ ings, FromRecords enc recs i) →
    ∀ i ∈ (loadSections enc secs ings).1, FromRecords enc recs i := by
  induction secs with
  | nil => intro ings _ hP; exact hP
  | cons sec rest ih =>
    intro ings hsub hP
    simp only [loadSections]
    rcases hfind : findIngr ings sec.kindId with _ | ing
    · exact ih ings (fun s hs => hsub s (List.mem_cons_of_mem _ hs)) hP
    · have hingMem : ing ∈ ings := by
        have := List.mem_of_find?_eq_some hfind
        exact this
      dsimp only
      by_cases hname : sec.kindName ≠ ing.kindName
      · rw [if_pos hname]; exact hP
      · by_cases htype : sec.sectionType ≠ ing.sectionType
        · rw [if_neg hname, if_pos htype]; exact hP
        · rw [if_neg hname, if_neg htype]
          have hnew : FromRecords enc recs
              (Ingr.loadRecords enc ing sec.records).1 :=
            loadRecords_from sec.records (hP ing hingMem)
              (hsub sec (List.mem_cons_self _ _))
          rcases hload : Ingr.loadRecords enc ing sec.records with ⟨ing', err⟩
          rw [hload] at hnew
          have hrepl : ∀ i ∈ replaceIngr ings sec.kindId ing',
              FromRecords enc recs i := by
            intro i hi
            rcases mem_replaceIngr hi with hi | hi
            · exact hP i hi
            · rw [hi]; exact hnew
          rcases err with _ | e
          · dsimp only
            exact ih _ (fun s hs => hsub s (List.mem_cons_of_mem _ hs)) hrepl
          · dsimp only
            exact hrepl

/-- C8 (amended: cache-load failures and the clean slate).  (1) Failures
detected *before* the clear — a duplicate kind id or a format-version
mismatch — abort the load with every ingredient's pre-existing state left
untouched (the original claim's "clean slate" is false there: see the
counterexample).  (2) Once the format check has passed, the ingredients
are cleared before any section is ingested, so whatever the outcome —
success, kind-name/section-type mismatch, or a record decode failure
mid-way — every datum of every final ingredient state comes from the cache
file's records: there is no blend of pre-existing and cached state.
(3) The runtime revision is set to the file's revision exactly on success
and is left unchanged on any failure. -/
theorem load_cache_clean_slate (enc : Val → Key) (cache : CacheFile)
    (rev : Nat) (ings : List Ingr) :
    (∀ e, ensureUniqueKindsGo [] ings = some e →
      loadCache enc cache rev ings = (rev, ings, some e)) ∧
    (ensureUniqueKindsGo [] ings = none → cache.formatVersion ≠ 1 →
      loadCache enc cache rev ings =
        (rev, ings, some (.Cache "unsupported cache format version"))) ∧
    (ensureUniqueKindsGo [] ings = none → cache.formatVersion = 1 →
      (∀ i ∈ (loadCache enc cache rev ings).2.1,
        FromRecords enc (allRecs cache) i) ∧
      ((loadCache enc cache rev ings).2.2 = none →
        (loadCache enc cache rev ings).1 = cache.currentRevision) ∧
      (∀ e, (loadCache enc cache rev ings).2.2 = some e →
        (loadCache enc cache rev ings).1 = rev)) := by
  refine ⟨?_, ?_, ?_⟩
  · intro e he; simp [loadCache, he]
  · intro hu hv; simp [loadCache, hu, hv]
  · intro hu hv
    have hsub : ∀ sec ∈ cache.sections, sec.records ⊆ allRecs cache := by
      intro sec hsec x hx
      simp only [allRecs, List.mem_flatten]
      exact ⟨sec.records, List.mem_map_of_mem Section.records hsec, hx⟩
    have hcleared : ∀ i ∈ ings.map Ingr.clear,
        FromRecords enc (allRecs cache) i := by
      intro i hi
      obtain ⟨j, _, rfl⟩ := List.mem_map.mp hi
      exact fromRecords_clear enc (allRecs cache) j
    have hstates := loadSections_from cache.sections (ings.map Ingr.clear)
      hsub hcleared
    simp only [loadCache, hu, hv, ite_false, if_false]
    rcases hls : loadSections enc cache.sections (ings.map Ingr.clear) with
      ⟨ings', err⟩
    rw [hls] at hstates
    rcases err with _ | e
    · exact ⟨hstates, fun _ => rfl, by intro e he; simp at he⟩
    · exact ⟨hstates, by intro h; simp at h, fun _ _ => rfl⟩

/-- Counterexample for C8 as stated: a cache file with format version 2 and
an ingredient holding one pre-existing input entry.  The load fails before
clearing, so the ingredient keeps its pre-existing entry — not the clean
slate the claim asserts for a format-version mismatch. -/
theorem load_cache_format_mismatch_counterexample :
    loadCache id ⟨2, 5, []⟩ 3 [Ingr.input 1 "a" [([0], [1], 0)]] =
      (3, [Ingr.input 1 "a" [([0], [1], 0)]],
        some (.Cache "unsupported cache format version")) ∧
    Ingr.input 1 "a" [([0], [1], 0)] ≠
      (Ingr.input 1 "a" [([0], [1], 0)]).clear := by
  refine ⟨rfl, ?_⟩
  decide

/-- Witness for C8's amended theorem: a unique-kind, version-1 load whose
post-clear guarantees the theorem instantiates concretely. -/
theorem load_cache_clean_slate_witness :
    (∀ i ∈ (loadCache id ⟨1, 9, [⟨1, "a", .Input, [.inputRec [0] [1] 2]⟩]⟩
        3 [Ingr.input 1 "a" [([7], [7], 7)]]).2.1,
      FromRecords id
        (allRecs ⟨1, 9, [⟨1, "a", .Input, [.inputRec [0] [1] 2]⟩]⟩) i) ∧
    ((loadCache id ⟨1, 9, [⟨1, "a", .Input, [.inputRec [0] [1] 2]⟩]⟩
        3 [Ingr.input 1 "a" [([7], [7], 7)]]).2.2 = none →
      (loadCache id ⟨1, 9, [⟨1, "a", .Input, [.inputRec [0] [1] 2]⟩]⟩
        3 [Ingr.input 1 "a" [([7], [7], 7)]]).1 = 9) ∧
    (∀ e, (loadCache id ⟨1, 9, [⟨1, "a", .Input, [.inputRec [0] [1] 2]⟩]⟩
        3 [Ingr.input 1 "a" [([7], [7], 7)]]).2.2 = some e →
      (loadCache id ⟨1, 9, [⟨1, "a", .Input, [.inputRec [0] [1] 2]⟩]⟩
        3 [Ingr.input 1 "a" [([7], [7], 7)]]).1 = 3) :=
  (load_cache_clean_slate id ⟨1, 9, [⟨1, "a", .Input, [.inputRec [0] [1] 2]⟩]⟩
    3 [Ingr.input 1 "a" [([7], [7], 7)]]).2.2 rfl rfl

/-- Index of the last `.` in a file name, if any. -/
def lastDotIdx : List Char → Option Nat
  | [] => none
  | c :: cs =>
      match lastDotIdx cs with
      | some i => some (i + 1)
      | none => if c = '.' then some 0 else none

/-- Rust `Path::file_stem` on a file name: the whole name when it has no
`.`, or when its only `.` is the leading character (a dotfile); otherwise
the portion before the final `.`. -/
def fileStemChars (cs : List Char) : List Char :=
  match lastDotIdx cs with
  | none => cs
  | some 0 => cs
  | some i => cs.take i

/-- A file-system path: an optional parent directory and a file name
(`Path::parent` / `Path::file_name`). -/
structure FilePath where
  parent : Option String
  fileName : String
  deriving DecidableEq, Repr

/-- Rust `Path::with_extension`: *replace* the extension — the stem plus
`.` plus the new extension (appending `.ext` only when the name has no
extension to strip). -/
def FilePath.withExtension (p : FilePath) (ext : String) : FilePath :=
  ⟨p.parent, String.mk (fileStemChars p.fileName.data ++ ('.' :: ext.data))⟩

/-- File-system operations `save_cache` performs
(`persist.rs` lines 101-120). -/
inductive FsOp where
  | createDirAll (dir : String)
  | writeFile (p : FilePath) (contents : CacheFile)
  | renameFile (src dst : FilePath)
  deriving DecidableEq, Repr

/-- A file system: path → decoded cache payload (byte encoding of the
payload is opaque and deterministic, so files are compared by payload). -/
abbrev Fs := List (FilePath × CacheFile)

/-- The write-then-rename tail of `save_cache` (`persist.rs` lines
109-120): write the payload to the temp path; on success rename it onto
the target (atomically replacing it); each I/O failure — decided by the
environment `io` — maps to a `Cache { message }` error.  Returns the file
system, the operations performed, and the result. -/
def saveWriteRename (io : FsOp → Bool) (fs : Fs) (file : CacheFile)
    (tmp path : FilePath) (done : List FsOp) :
    Fs × List FsOp × Except PicanteError Unit :=
  if io (.writeFile tmp file) then
    let fs1 := insertA fs tmp file
    if io (.renameFile tmp path) then
      (insertA (fs1.filter fun q => q.1 ≠ tmp) path file,
        done ++ [.writeFile tmp file, .renameFile tmp path], .ok ())
    else
      (fs1, done ++ [.writeFile tmp file],
        .error (.Cache "rename failed"))
  else (fs, done, .error (.Cache "write failed"))

/-- `save_cache` down to its file-system effects (`persist.rs` lines
67-128): enforce unique kind ids; build and encode the
`CacheFile { format_version = 1, ... }` payload; create the parent
directory if the path has one; write to `path.with_extension("tmp")`;
rename onto `path`.  Every I/O failure maps to `Cache { message }`. -/
def saveCacheToFs (io : FsOp → Bool) (fs : Fs) (rev : Nat)
    (ings : List Ingr) (path : FilePath) :
    Fs × List FsOp × Except PicanteError Unit :=
  match ensureUniqueKindsGo [] ings with
  | some e => (fs, [], .error e)
  | none =>
      let file : CacheFile := ⟨1, rev, ings.map secOf⟩
      let tmp := path.withExtension "tmp"
      match path.parent with
      | some d =>
          if io (.createDirAll d) then
            saveWriteRename io fs file tmp path [.createDirAll d]
          else (fs, [], .error (.Cache "create_dir_all failed"))
      | none => saveWriteRename io fs file tmp path []

/-- Counterexample for C7 as stated: saving to `c.bin` (all I/O
succeeding, no ingredients).  `with_extension("tmp")` *replaces* the
extension, so the temp file written is `c.tmp`, not the claimed
`c.bin.tmp`: the performed operations name `c.tmp`, and no operation
touches `c.bin.tmp`. -/
theorem save_cache_tmp_path_counterexample :
    (saveCacheToFs (fun _ => true) [] 0 [] ⟨none, "c.bin"⟩).2.1 =
      [.writeFile ⟨none, "c.tmp"⟩ ⟨1, 0, []⟩,
        .renameFile ⟨none, "c.tmp"⟩ ⟨none, "c.bin"⟩] ∧
    (⟨none, "c.tmp"⟩ : FilePath) ≠ ⟨none, "c.bin" ++ ".tmp"⟩ := by
  constructor
  · rfl
  · decide

theorem lookupA_insertA_self_any {κ β : Type} [DecidableEq κ]
    (l : List (κ × β)) (k : κ) (b : β) :
    lookupA (insertA l k b) k = some b := by
  induction l with
  | nil => simp [insertA, lookupA]
  | cons q rest ih =>
    by_cases hq : q.1 = k
    · simp [insertA, hq, lookupA]
    · simp [insertA, hq, lookupA, ih]

theorem lookupA_insertA_other {κ β : Type} [DecidableEq κ]
    (l : List (κ × β)) (k k' : κ) (b : β) (h : k ≠ k') :
    lookupA (insertA l k b) k' = lookupA l k' := by
  induction l with
  | nil => simp [insertA, lookupA, h]
  | cons q rest ih =>
    by_cases hq : q.1 = k
    · simp [insertA, hq, lookupA, h]
    · simp [insertA, hq, lookupA, ih]

theorem lookupA_filter_ne {β : Type} (l : List (FilePath × β))
    (tmp : FilePath) :
    lookupA (l.filter fun q => q.1 ≠ tmp) tmp = none := by
  induction l with
  | nil => rfl
  | cons q rest ih =>
    by_cases hq : q.1 = tmp
    · simpa [List.filter_cons, hq] using ih
    · simpa [List.filter_cons, hq, lookupA] using ih

/-- C7 (amended: atomic save via temp-and-rename).  With unique kind ids:
(1) when the needed I/O succeeds, `save_cache` performs exactly — and in
this order — `create_dir_all(parent)` when the path has a parent, a write
of the encoded cache payload to the temporary path
`path.with_extension("tmp")` (the extension is *replaced*; `.tmp` is
appended only when the target has no extension — not `path + ".tmp"` as
the claim stated), and a rename of the temporary file onto `path`;
afterwards `path` holds the payload and the temporary file is gone
(when the two paths differ).  (2) Every failure along the way — duplicate
kind id, `create_dir_all`, `write`, or `rename` — surfaces as a
`Cache { message }` error. -/
theorem save_cache_tmp_rename (io : FsOp → Bool) (fs : Fs) (rev : Nat)
    (ings : List Ingr) (path : FilePath)
    (hu : ensureUniqueKindsGo [] ings = none) :
    ((∀ op, io op = true) →
      saveCacheToFs io fs rev ings path =
        (insertA ((insertA fs (path.withExtension "tmp")
            ⟨1, rev, ings.map secOf⟩).filter
              fun q => q.1 ≠ path.withExtension "tmp") path
            ⟨1, rev, ings.map secOf⟩,
          (match path.parent with
            | some d => [FsOp.createDirAll d]
            | none => []) ++
            [.writeFile (path.withExtension "tmp") ⟨1, rev, ings.map secOf⟩,
              .renameFile (path.withExtension "tmp") path], .ok ()) ∧
      lookupA (saveCacheToFs io fs rev ings path).1 path =
        some ⟨1, rev, ings.map secOf⟩ ∧
      (path.withExtension "tmp" ≠ path →
        lookupA (saveCacheToFs io fs rev ings path).1
          (path.withExtension "tmp") = none)) ∧
    (∀ e, (saveCacheToFs io fs rev ings path).2.2 = .error e →
      ∃ msg, e = .Cache msg) := by
  constructor
  · intro hio
    have heq : saveCacheToFs io fs rev ings path =
        (insertA ((insertA fs (path.withExtension "tmp")
            ⟨1, rev, ings.map secOf⟩).filter
              fun q => q.1 ≠ path.withExtension "tmp") path
            ⟨1, rev, ings.map secOf⟩,
          (match path.parent with
            | some d => [FsOp.createDirAll d]
            | none => []) ++
            [.writeFile (path.withExtension "tmp") ⟨1, rev, ings.map secOf⟩,
              .renameFile (path.withExtension "tmp") path], .ok ()) := by
      rcases hpar : path.parent with _ | d <;>
        simp [saveCacheToFs, saveWriteRename, hu, hpar, hio]
    refine ⟨heq, ?_, ?_⟩
    · rw [heq]
      exact lookupA_insertA_self_any _ _ _
    · intro hne
      rw [heq]
      have h1 := lookupA_insertA_other
        ((insertA fs (path.withExtension "tmp")
          ⟨1, rev, ings.map secOf⟩).filter
            fun q => q.1 ≠ path.withExtension "tmp") path
        (path.withExtension "tmp") ⟨1, rev, ings.map secOf⟩
        (fun hh => hne hh.symm)
      rw [h1]
      exact lookupA_filter_ne _ _
  · intro e he
    revert he
    rcases hpar : path.parent with _ | d
    · simp only [saveCacheToFs, hu, hpar]
      by_cases hw : io (.writeFile (path.withExtension "tmp")
          ⟨1, rev, ings.map secOf⟩) = true <;>
        by_cases hr : io (.renameFile (path.withExtension "tmp") path) =
          true <;>
        simp [saveWriteRename, hw, hr] <;> intro hh <;>
        exact ⟨_, hh.symm⟩
    · simp only [saveCacheToFs, hu, hpar]
      by_cases hd : io (.createDirAll d) = true
      · by_cases hw : io (.writeFile (path.withExtension "tmp")
            ⟨1, rev, ings.map secOf⟩) = true <;>
          by_cases hr : io (.renameFile (path.withExtension "tmp") path) =
            true <;>
          simp [saveWriteRename, hw, hr, hd] <;> intro hh <;>
          exact ⟨_, hh.symm⟩
      · simp [hd]
        intro hh
        exact ⟨_, hh.symm⟩

/-- An I/O environment in which every operation succeeds. -/
def ioAll : FsOp → Bool := fun _ => true

/-- Witness for C7's amended theorem: saving to `d/cache` (no extension,
so the temp file is `d/cache.tmp`) with all I/O succeeding: the operation
trace is create-dir, write-temp, rename, the target holds the payload and
the temp file is gone; and failures map to `Cache`. -/
theorem save_cache_tmp_rename_witness :
    ((∀ op, ioAll op = true) →
      saveCacheToFs ioAll [] 4 [] ⟨some "d", "cache"⟩ =
        (insertA ((insertA [] ((⟨some "d", "cache"⟩ :
            FilePath).withExtension "tmp") ⟨1, 4, []⟩).filter
              fun q => q.1 ≠ (⟨some "d", "cache"⟩ :
                FilePath).withExtension "tmp") ⟨some "d", "cache"⟩
            ⟨1, 4, []⟩,
          (match (⟨some "d", "cache"⟩ : FilePath).parent with
            | some d => [FsOp.createDirAll d]
            | none => []) ++
            [.writeFile ((⟨some "d", "cache"⟩ :
                FilePath).withExtension "tmp") ⟨1, 4, []⟩,
              .renameFile ((⟨some "d", "cache"⟩ :
                FilePath).withExtension "tmp") ⟨some "d", "cache"⟩],
          .ok ()) ∧
      lookupA (saveCacheToFs ioAll [] 4 []
          ⟨some "d", "cache"⟩).1 ⟨some "d", "cache"⟩ =
        some ⟨1, 4, []⟩ ∧
      ((⟨some "d", "cache"⟩ : FilePath).withExtension "tmp" ≠
          ⟨some "d", "cache"⟩ →
        lookupA (saveCacheToFs ioAll [] 4 []
            ⟨some "d", "cache"⟩).1
          ((⟨some "d", "cache"⟩ : FilePath).withExtension "tmp") =
            none)) ∧
    (∀ e, (saveCacheToFs ioAll [] 4 []
        ⟨some "d", "cache"⟩).2.2 = .error e → ∃ msg, e = .Cache msg) :=
  save_cache_tmp_rename ioAll [] 4 [] ⟨some "d", "cache"⟩ rfl

end Persist

end Picante
